import Mathlib

/-!
Verification of the RoboCOIN DataManager filter core
(`docs/js/modules/filter-manager.js`).

JavaScript strings are modelled as `List Char` (`Str`), JS `Set<string>` as a
`List Str` with membership-checked insertion (JS sets iterate in insertion
order), JS `Map` as an association list in insertion order, and JS `undefined`
string fields as `Option Str` / empty lists, matching how the code guards them.
-/

namespace RC

/-- JS strings, modelled as lists of characters. -/
abbrev Str := List Char

/-- JS `str.split(sep)` for a one-character separator: splits `l` at every
occurrence of `c`; never returns `[]`, returns `[l]` when `c` does not occur. -/
def splitOnChar (c : Char) : Str → List Str
  | [] => [[]]
  | x :: xs =>
    match splitOnChar c xs with
    | [] => [[]]
    | h :: t => if x = c then [] :: h :: t else (x :: h) :: t

/-- JS `list.includes(x)` / `Set.has(x)` (SameValueZero equality on strings). -/
def includes {α : Type} [DecidableEq α] (l : List α) (x : α) : Bool :=
  l.any (fun y => decide (y = x))

/-- JS `name.toLowerCase().includes(query.toLowerCase())`. -/
def lowerIncludes (name query : Str) : Bool :=
  decide ((query.map Char.toLower) <:+: (name.map Char.toLower))

/-- The `robot` field of a record: either a scalar string or an array
(`Array.isArray(ds.robot)` dispatch in the source). A missing field behaves
exactly like the empty array everywhere the source reads it. -/
inductive RobotField : Type
  | scalar (r : Str)
  | list (rs : List Str)
deriving DecidableEq

/-- One entry of a record's `objects` array. -/
structure ObjectRef where
  name : Str
  hierarchy : List Str
deriving DecidableEq

/-- A catalog record (`Dataset` in `types.js`), restricted to the fields the
filter module reads. Multi-valued fields that the source guards with
truthiness checks are plain lists (a missing field behaves as `[]`);
`endEffector` keeps its possible absence as `Option`. -/
structure Dataset where
  path : Str
  name : Str
  scenes : List Str
  robot : RobotField
  endEffector : Option Str
  actions : List Str
  objects : List ObjectRef
deriving DecidableEq

/-- `Array.isArray(ds.robot) ? ds.robot : [ds.robot]`. -/
def robots (ds : Dataset) : List Str :=
  match ds.robot with
  | RobotField.scalar r => [r]
  | RobotField.list rs => rs

def sceneKey : Str := "scene".toList
def robotKey : Str := "robot".toList
def endKey : Str := "end".toList
def actionKey : Str := "action".toList
def objectKey : Str := "object".toList

/-- The five facet keys of `buildFilterGroups`, in sidebar order. -/
def facetKeys : List Str := [sceneKey, robotKey, endKey, actionKey, objectKey]

/-- `"key:value"`: the selection-entry identifier built by
`toggleFilterSelection` and friends. -/
def mkId (k v : Str) : Str := k ++ ':' :: v

/-- `const [key, value] = filterId.split(':')` — the key is the part before
the first `:`; the value is the part between the first and second `:`
(`undefined`, i.e. `none`, when the id contains no `:`). -/
def parseId (id : Str) : Str × Option Str :=
  match splitOnChar ':' id with
  | [] => ([], none)
  | [k] => (k, none)
  | k :: v :: _ => (k, some v)

/-- Association lookup in the `filters` object built by `applyFilters`. -/
def lookupVs : List (Str × List (Option Str)) → Str → Option (List (Option Str))
  | [], _ => none
  | (k0, vs) :: rest, k => if k0 = k then some vs else lookupVs rest k

/-- `filters[key].push(value)`: append `v` to the (first) entry with key `k`. -/
def appendVal : List (Str × List (Option Str)) → Str → Option Str →
    List (Str × List (Option Str))
  | [], _, _ => []
  | (k0, vs) :: rest, k, v =>
    if k0 = k then (k0, vs ++ [v]) :: rest else (k0, vs) :: appendVal rest k v

/-- `if (!filters[key]) filters[key] = []; filters[key].push(value)`. -/
def addEntry (acc : List (Str × List (Option Str))) (k : Str) (v : Option Str) :
    List (Str × List (Option Str)) :=
  match lookupVs acc k with
  | some _ => appendVal acc k v
  | none => acc ++ [(k, [v])]

/-- The grouping loop of `applyFilters`: split every selected id on `:` and
group the second components by the first. -/
def collectFilters (sel : List Str) : List (Str × List (Option Str)) :=
  sel.foldl (fun acc id => addEntry acc (parseId id).1 (parseId id).2) []

/-- The per-facet `match` computation inside `applyFilters`' record loop
(one `if/else if` chain; an unrecognized key leaves `match` false). -/
def facetMatch (key : Str) (values : List (Option Str)) (ds : Dataset) : Bool :=
  if key = sceneKey then ds.scenes.any (fun v => includes values (some v))
  else if key = robotKey then (robots ds).any (fun r => includes values (some r))
  else if key = endKey then includes values ds.endEffector
  else if key = actionKey then ds.actions.any (fun a => includes values (some a))
  else if key = objectKey then
    ds.objects.any (fun obj => obj.hierarchy.any (fun h => includes values (some h)))
  else false

/-- The record predicate of `applyFilters`: the query check followed by the
loop over collected filter groups (all groups must match). -/
def dsPasses (filters : List (Str × List (Option Str))) (query : Str)
    (ds : Dataset) : Bool :=
  (query.isEmpty || lowerIncludes ds.name query) &&
    filters.all (fun kv => facetMatch kv.1 kv.2 ds)

/-- `FilterManager.applyFilters(searchQuery)`, with the catalog
(`this.datasets`) and the selection set (`this.selectedFilters`, in insertion
order) passed explicitly. -/
def applyFilters (datasets : List Dataset) (sel : List Str) (query : Str) :
    List Dataset :=
  datasets.filter (dsPasses (collectFilters sel) query)

/-- The per-facet `match` computation of `calculateAffectedCount` (same
key dispatch, but against the raw `filterValue`, no id parsing). -/
def affectedMatch (ds : Dataset) (filterKey filterValue : Str) : Bool :=
  if filterKey = sceneKey then includes ds.scenes filterValue
  else if filterKey = robotKey then includes (robots ds) filterValue
  else if filterKey = endKey then decide (ds.endEffector = some filterValue)
  else if filterKey = actionKey then includes ds.actions filterValue
  else if filterKey = objectKey then
    ds.objects.any (fun obj => includes obj.hierarchy filterValue)
  else false

/-- `FilterManager.calculateAffectedCount(filterKey, filterValue)`. -/
def calculateAffectedCount (datasets : List Dataset) (k v : Str) : Nat :=
  datasets.countP (fun ds => affectedMatch ds k v)

/-- A node of the hierarchical facet: `{ children: Map, isLeaf: boolean }`.
The children `Map` is an association list in insertion order. -/
inductive HNode : Type
  | mk (isLeaf : Bool) (children : List (Str × HNode))

/-- A hierarchy `Map` (also the root of the tree in `filterGroups.object.values`). -/
abbrev HMap := List (Str × HNode)

def HNode.isLeaf : HNode → Bool
  | HNode.mk b _ => b

def HNode.children : HNode → HMap
  | HNode.mk _ c => c

theorem HNode.eta : ∀ n : HNode, HNode.mk n.isLeaf n.children = n
  | HNode.mk _ _ => rfl

/-- JS `map.has(l)` / `map.get(l)` combined. -/
def lookupNode : HMap → Str → Option HNode
  | [], _ => none
  | (k, n) :: rest, l => if k = l then some n else lookupNode rest l

/-- JS `map.set(l, n)` when `l` is already present: replace in place,
keeping the entry's position in insertion order. -/
def setFirst : HMap → Str → HNode → HMap
  | [], _, _ => []
  | (k, n) :: rest, l, x => if k = l then (l, x) :: rest else (k, n) :: setFirst rest l x

/-- `FilterManager.addToHierarchy(hierarchyMap, levels)`: walk the labels,
creating a child where missing; a node created at step `idx` gets
`isLeaf = (idx === levels.length - 1)`; an existing node is never re-flagged. -/
def insertPath : HMap → List Str → HMap
  | m, [] => m
  | m, l :: rest =>
    match lookupNode m l with
    | some n => setFirst m l (HNode.mk n.isLeaf (insertPath n.children rest))
    | none => m ++ [(l, HNode.mk rest.isEmpty (insertPath [] rest))]

/-- `FilterManager.countHierarchyItems`: childless nodes count 1, nodes with
children contribute their recursive count (the `isLeaf` flag is ignored). -/
def countLeaves : HMap → Nat
  | [] => 0
  | (_, HNode.mk _ ch) :: rest =>
    (if ch.isEmpty then 1 else countLeaves ch) + countLeaves rest

/-- A hierarchy built by a sequence of `addToHierarchy` calls on an initially
empty map (as `buildFilterGroups` does for the `object` facet). -/
def buildTree (ps : List (List Str)) : HMap :=
  ps.foldl insertPath []

/-- Descend from the root through a non-empty list of labels; the addressing
function used to state tree invariants (`nodeAt m p` is the node whose
root path is `p`). -/
def nodeAt : HMap → List Str → Option HNode
  | _, [] => none
  | m, l :: rest =>
    match lookupNode m l with
    | none => none
    | some n => if rest = [] then some n else nodeAt n.children rest

/-- First index of `x` in `l` (JS `parts.indexOf(part)`; every use in the
source looks up an element that is present, where both agree). -/
def idxOfStr : List Str → Str → Nat
  | [], _ => 0
  | x :: xs, a => if x = a then 0 else idxOfStr xs a + 1

/-- The `for (const part of parts)` loop of `findHierarchyNode`, with the
full `parts` array captured for the `parts.indexOf(part)` test. -/
def findLoop (parts : List Str) : HMap → List Str → Option HNode
  | _, [] => none
  | current, part :: rest =>
    match lookupNode current part with
    | none => none
    | some n =>
      if idxOfStr parts part = parts.length - 1 then some n
      else findLoop parts n.children rest

/-- `FilterManager.findHierarchyNode(hierarchyMap, path)`. -/
def findHierarchyNode (m : HMap) (path : Str) : Option HNode :=
  findLoop (splitOnChar '>' path) m (splitOnChar '>' path)

/-- JS `Set.add`: append when absent (sets iterate in insertion order). -/
def setAdd (sel : List Str) (x : Str) : List Str :=
  if includes sel x then sel else sel ++ [x]

/-- The selection-set effect of `FilterManager.toggleFilterSelection`:
delete `"key:value"` when present, add it otherwise (the DOM class and tag
bookkeeping around it is rendering, out of the core model). -/
def toggleFilterSelection (sel : List Str) (k v : Str) : List Str :=
  let filterId := mkId k v
  if includes sel filterId then sel.filter (fun x => decide (x ≠ filterId))
  else sel ++ [filterId]

/-- The value container of one filter group: `type: 'flat'` with a value set,
or `type: 'hierarchical'` with a hierarchy map. -/
inductive GroupVals : Type
  | flat (values : List Str)
  | hier (values : HMap)

/-- The flat branch of `selectAllInGroup`: add `"key:value"` for every value
of the group not already selected. -/
def selectAllFlat (sel : List Str) (key : Str) (values : List Str) : List Str :=
  values.foldl (fun s v => setAdd s (mkId key v)) sel

/-- `FilterManager.selectAllInHierarchy`: walk every node; add
`"key:label"` for every node flagged `isLeaf`; recurse into non-empty
children. (The source also threads a `fullPath` string, but never uses it
for the selection id, so it is omitted here.) -/
def selectAllInHierarchy (key : Str) (sel : List Str) : HMap → List Str
  | [] => sel
  | (value, HNode.mk isLf ch) :: rest =>
    let sel1 := if isLf then setAdd sel (mkId key value) else sel
    let sel2 := if ch.isEmpty then sel1 else selectAllInHierarchy key sel1 ch
    selectAllInHierarchy key sel2 rest

/-- `FilterManager.selectAllInGroup(groupKey)`: no-op for an unknown group,
otherwise dispatch on the group's shape. -/
def selectAllInGroup (sel : List Str) (key : Str) (g : Option GroupVals) : List Str :=
  match g with
  | none => sel
  | some (GroupVals.flat vs) => selectAllFlat sel key vs
  | some (GroupVals.hier m) => selectAllInHierarchy key sel m

/-- The facet index built by `buildFilterGroups` (titles and the `type`
tags are fixed; only the value containers vary). -/
structure FilterGroups where
  sceneValues : List Str
  robotValues : List Str
  endValues : List Str
  actionValues : List Str
  objectValues : HMap

def emptyGroups : FilterGroups := ⟨[], [], [], [], []⟩

/-- JS truthiness of the `robot` field, as tested by the
`if (ds.robot)` guard in `buildFilterGroups`: a scalar empty string is
falsy and skipped; an array — even an empty one — is truthy. -/
def robotTruthy (ds : Dataset) : Bool :=
  match ds.robot with
  | RobotField.scalar r => !r.isEmpty
  | RobotField.list _ => true

/-- The body of the `datasets.forEach` in `buildFilterGroups`: each flat
field accumulates into its set (a JS-falsy — absent or empty —
`endEffector` is skipped, and likewise a falsy `robot` field), every
`objects[].hierarchy` is inserted into the hierarchy map. -/
def addDataset (g : FilterGroups) (ds : Dataset) : FilterGroups :=
  { sceneValues := ds.scenes.foldl setAdd g.sceneValues
    robotValues :=
      if robotTruthy ds then (robots ds).foldl setAdd g.robotValues
      else g.robotValues
    endValues :=
      match ds.endEffector with
      | some e => if e.isEmpty then g.endValues else setAdd g.endValues e
      | none => g.endValues
    actionValues := ds.actions.foldl setAdd g.actionValues
    objectValues := ds.objects.foldl (fun h obj => insertPath h obj.hierarchy) g.objectValues }

/-- `FilterManager.buildFilterGroups()` restricted to its data content. -/
def buildFilterGroups (datasets : List Dataset) : FilterGroups :=
  datasets.foldl addDataset emptyGroups

/-- Filter Finder navigation state: the ordered match list (each match
represented by its label text) and `filterFinderCurrentIndex`
(a JS number; `-1` is the no-selection sentinel). -/
structure FinderState where
  matchList : List Str
  currentIndex : Int
deriving DecidableEq

def nextDir : Str := "next".toList

/-- `FilterManager.navigateFilterMatch(direction)`: no-op when there are no
matches; otherwise advance cyclically (JS `%` is truncating `tmod`). -/
def navigateFilterMatch (st : FinderState) (direction : Str) : FinderState :=
  if st.matchList.length = 0 then st
  else if direction = nextDir then
    { st with currentIndex := Int.tmod (st.currentIndex + 1) (st.matchList.length : Int) }
  else
    { st with currentIndex :=
        Int.tmod (st.currentIndex - 1 + (st.matchList.length : Int)) (st.matchList.length : Int) }

/-- The scheduler-facing state of the manager: the selection set, the single
pending-timeout slot (`pendingFilterUpdate`), a supply of fresh timer ids
(`setTimeout` returns a fresh positive id; freshness is what matters), and
the set of ids passed to `clearTimeout`. -/
structure SchedState where
  selectedFilters : List Str
  pendingFilterUpdate : Option Nat
  nextTimerId : Nat
  cancelledTimers : List Nat

/-- `if (this.pendingFilterUpdate) clearTimeout(this.pendingFilterUpdate)`,
recording the cancelled id and emptying the slot. -/
def clearPending (s : SchedState) : SchedState :=
  match s.pendingFilterUpdate with
  | some tid =>
    { s with cancelledTimers := tid :: s.cancelledTimers, pendingFilterUpdate := none }
  | none => s

/-- `FilterManager.scheduleFilterUpdate()`: cancel any pending timeout, then
store a fresh `setTimeout` id in the slot. -/
def scheduleFilterUpdate (s : SchedState) : SchedState :=
  let s1 := clearPending s
  { s1 with pendingFilterUpdate := some s1.nextTimerId, nextTimerId := s1.nextTimerId + 1 }

/-- `FilterManager.resetFilters()`: cancel any pending timeout and clear the
slot, empty the selection set, then schedule a fresh update. -/
def resetFilters (s : SchedState) : SchedState :=
  let s1 := clearPending s
  let s2 := { s1 with selectedFilters := [] }
  scheduleFilterUpdate s2

/-- The debounce timeout firing: the callback dispatches `filtersChanged`
and nulls the slot; only the id currently in the slot can fire. -/
def fireTimer (s : SchedState) : SchedState :=
  match s.pendingFilterUpdate with
  | some _ => { s with pendingFilterUpdate := none }
  | none => s

/-- A toggle event: mutate the selection synchronously, then debounce. -/
def toggleOp (s : SchedState) (k v : Str) : SchedState :=
  scheduleFilterUpdate
    { s with selectedFilters := toggleFilterSelection s.selectedFilters k v }

/-- One user-or-timer event of the single-threaded event loop. -/
inductive Step : SchedState → SchedState → Prop
  | toggle (k v : Str) (s : SchedState) : Step s (toggleOp s k v)
  | reset (s : SchedState) : Step s (resetFilters s)
  | fire (s : SchedState) : Step s (fireTimer s)
  | schedule (s : SchedState) : Step s (scheduleFilterUpdate s)

/-- Reachability through any number of events. -/
def Reach : SchedState → SchedState → Prop :=
  Relation.ReflTransGen Step

/-! ### Generic list and string lemmas -/

theorem includes_iff {α : Type} [DecidableEq α] (l : List α) (x : α) :
    includes l x = true ↔ x ∈ l := by
  simp [includes]

theorem mem_setAdd (l : List Str) (v x : Str) :
    x ∈ setAdd l v ↔ x ∈ l ∨ x = v := by
  unfold setAdd
  by_cases h : v ∈ l
  · rw [if_pos ((includes_iff l v).mpr h)]
    constructor
    · exact Or.inl
    · rintro (hx | rfl)
      · exact hx
      · exact h
  · rw [if_neg (fun hc => h ((includes_iff l v).mp hc))]
    simp

theorem mem_foldl_setAdd (vs : List Str) :
    ∀ (l : List Str) (x : Str), x ∈ vs.foldl setAdd l ↔ x ∈ l ∨ x ∈ vs := by
  induction vs with
  | nil => simp
  | cons v vs ih =>
    intro l x
    simp only [List.foldl_cons, ih, mem_setAdd, List.mem_cons]
    tauto

theorem foldl_setAdd_of_subset (vs : List Str) :
    ∀ l : List Str, (∀ v ∈ vs, v ∈ l) → vs.foldl setAdd l = l := by
  induction vs with
  | nil => intro l _; rfl
  | cons v vs ih =>
    intro l h
    have hv : v ∈ l := h v (List.mem_cons_self v vs)
    have : setAdd l v = l := by
      simp [setAdd, (includes_iff l v).mpr hv]
    rw [List.foldl_cons, this]
    exact ih l (fun w hw => h w (List.mem_cons_of_mem v hw))

theorem splitOnChar_ne_nil (c : Char) (l : Str) : splitOnChar c l ≠ [] := by
  cases l with
  | nil => simp [splitOnChar]
  | cons x xs =>
    simp only [splitOnChar]
    cases h : splitOnChar c xs with
    | nil => simp
    | cons a t =>
      by_cases hx : x = c <;> simp [hx]

theorem splitOnChar_of_not_mem (c : Char) :
    ∀ l : Str, c ∉ l → splitOnChar c l = [l] := by
  intro l
  induction l with
  | nil => intro _; rfl
  | cons x xs ih =>
    intro h
    have hx : x ≠ c := fun hc => h (hc ▸ List.mem_cons_self x xs)
    have hxs : c ∉ xs := fun hc => h (List.mem_cons_of_mem x hc)
    simp only [splitOnChar, ih hxs]
    simp [fun hc => hx hc]

theorem splitOnChar_append (c : Char) :
    ∀ l₁ l₂ : Str, c ∉ l₁ →
      splitOnChar c (l₁ ++ c :: l₂) = l₁ :: splitOnChar c l₂ := by
  intro l₁
  induction l₁ with
  | nil =>
    intro l₂ _
    simp only [List.nil_append, splitOnChar]
    cases h : splitOnChar c l₂ with
    | nil => exact absurd h (splitOnChar_ne_nil c l₂)
    | cons a t => simp
  | cons x xs ih =>
    intro l₂ h
    have hx : x ≠ c := fun hc => h (hc ▸ List.mem_cons_self x xs)
    have hxs : c ∉ xs := fun hc => h (List.mem_cons_of_mem x hc)
    have hsplit := ih l₂ hxs
    simp only [List.cons_append, splitOnChar, List.append_eq, hsplit]
    simp [hx]

theorem parseId_mkId (k v : Str) (hk : ':' ∉ k) (hv : ':' ∉ v) :
    parseId (mkId k v) = (k, some v) := by
  have h := splitOnChar_append ':' k v hk
  rw [mkId, parseId, h, splitOnChar_of_not_mem ':' v hv]

/-- Decomposition of a string at its first occurrence of a character. -/
theorem takeWhile_decomp (c : Char) :
    ∀ v : Str, c ∈ v →
      ∃ v₂, v = v.takeWhile (fun x => decide (x ≠ c)) ++ c :: v₂ ∧
        c ∉ v.takeWhile (fun x => decide (x ≠ c)) := by
  intro v
  induction v with
  | nil => intro h; cases h
  | cons x xs ih =>
    intro h
    by_cases hx : x = c
    · subst hx
      refine ⟨xs, ?_, ?_⟩ <;> simp [List.takeWhile_cons]
    · have hxs : c ∈ xs := by
        rcases List.mem_cons.mp h with h1 | h1
        · exact absurd h1.symm hx
        · exact h1
      rcases ih hxs with ⟨v₂, hdec, hnot⟩
      have hpx : (decide (x ≠ c)) = true := by simp [hx]
      refine ⟨v₂, ?_, ?_⟩
      · rw [List.takeWhile_cons, if_pos hpx, List.cons_append]
        exact congrArg (x :: ·) hdec
      · rw [List.takeWhile_cons, if_pos hpx]
        intro hmem
        rcases List.mem_cons.mp hmem with h1 | h1
        · exact hx h1.symm
        · exact hnot h1


/-! ### The filter-grouping loop of applyFilters -/

/-- The parsed values destined for key `k`, in selection order. -/
def groupVals (sel : List Str) (k : Str) : List (Option Str) :=
  ((sel.map parseId).filter (fun p => decide (p.1 = k))).map (fun p => p.2)

/-- How later pushes combine with an existing (or absent) `filters[k]` entry. -/
def mergeOpt : Option (List (Option Str)) → List (Option Str) → Option (List (Option Str))
  | some vs, l => some (vs ++ l)
  | none, l => if l.isEmpty then none else some l

theorem lookupVs_cons_self (k : Str) (vs : List (Option Str))
    (rest : List (Str × List (Option Str))) :
    lookupVs ((k, vs) :: rest) k = some vs := by
  simp [lookupVs]

theorem lookupVs_cons_ne (k0 k : Str) (vs : List (Option Str))
    (rest : List (Str × List (Option Str))) (hk : k0 ≠ k) :
    lookupVs ((k0, vs) :: rest) k = lookupVs rest k := by
  simp [lookupVs, hk]

theorem mergeOpt_nil (x : Option (List (Option Str))) : mergeOpt x [] = x := by
  cases x <;> simp [mergeOpt]

theorem mergeOpt_append (x : Option (List (Option Str))) (a b : List (Option Str)) :
    mergeOpt x (a ++ b) = mergeOpt (mergeOpt x a) b := by
  cases x with
  | some vs => simp [mergeOpt]
  | none =>
    cases a with
    | nil => simp [mergeOpt]
    | cons y ys =>
      cases b <;> simp [mergeOpt]

theorem lookupVs_appendVal_eq (k : Str) (v : Option Str) :
    ∀ (acc : List (Str × List (Option Str))) (vs : List (Option Str)),
      lookupVs acc k = some vs →
      lookupVs (appendVal acc k v) k = some (vs ++ [v]) := by
  intro acc
  induction acc with
  | nil => intro vs h; cases h
  | cons p rest ih =>
    obtain ⟨k0, vs0⟩ := p
    intro vs h
    by_cases hk : k0 = k
    · subst hk
      simp only [lookupVs, if_true, eq_self_iff_true, Option.some.injEq] at h
      simp [appendVal, lookupVs, h]
    · simp only [lookupVs, if_neg hk] at h
      simp only [appendVal, if_neg hk, lookupVs]
      exact ih vs h

theorem lookupVs_appendVal_ne (k k2 : Str) (v : Option Str) (hne : k2 ≠ k) :
    ∀ acc : List (Str × List (Option Str)),
      lookupVs (appendVal acc k v) k2 = lookupVs acc k2 := by
  intro acc
  induction acc with
  | nil => rfl
  | cons p rest ih =>
    obtain ⟨k0, vs0⟩ := p
    by_cases hk : k0 = k
    · subst hk
      have h2 : k0 ≠ k2 := fun hc => hne hc.symm
      simp [appendVal, lookupVs, h2]
    · simp only [appendVal, if_neg hk, lookupVs]
      by_cases h0 : k0 = k2 <;> simp [h0, ih]

theorem lookupVs_append_single_ne (k k2 : Str) (vs : List (Option Str)) (hne : k2 ≠ k) :
    ∀ acc : List (Str × List (Option Str)),
      lookupVs (acc ++ [(k, vs)]) k2 = lookupVs acc k2 := by
  intro acc
  induction acc with
  | nil =>
    have h2 : k ≠ k2 := fun hc => hne hc.symm
    simp [lookupVs, h2]
  | cons p rest ih =>
    obtain ⟨k0, vs0⟩ := p
    by_cases hk : k0 = k2 <;> simp [lookupVs, hk, ih]

theorem lookupVs_append_single_eq (k : Str) (vs : List (Option Str)) :
    ∀ acc : List (Str × List (Option Str)),
      lookupVs acc k = none →
      lookupVs (acc ++ [(k, vs)]) k = some vs := by
  intro acc
  induction acc with
  | nil => intro _; simp [lookupVs]
  | cons p rest ih =>
    obtain ⟨k0, vs0⟩ := p
    intro h
    by_cases hk : k0 = k
    · subst hk; simp [lookupVs] at h
    · simp only [lookupVs, if_neg hk] at h
      simp only [List.cons_append, lookupVs, if_neg hk]
      exact ih h

theorem lookupVs_addEntry_self (acc : List (Str × List (Option Str))) (k : Str)
    (v : Option Str) :
    lookupVs (addEntry acc k v) k = some ((lookupVs acc k).getD [] ++ [v]) := by
  unfold addEntry
  cases h : lookupVs acc k with
  | some vs => simpa [h] using lookupVs_appendVal_eq k v acc vs h
  | none => simpa [h] using lookupVs_append_single_eq k [v] acc h

theorem lookupVs_addEntry_ne (acc : List (Str × List (Option Str))) (k k2 : Str)
    (v : Option Str) (hne : k2 ≠ k) :
    lookupVs (addEntry acc k v) k2 = lookupVs acc k2 := by
  unfold addEntry
  cases h : lookupVs acc k with
  | some vs => exact lookupVs_appendVal_ne k k2 v hne acc
  | none => exact lookupVs_append_single_ne k k2 [v] hne acc

theorem groupVals_cons (id : Str) (ids : List Str) (k : Str) :
    groupVals (id :: ids) k =
      (if (parseId id).1 = k then [(parseId id).2] else []) ++ groupVals ids k := by
  by_cases h : (parseId id).1 = k <;> simp [groupVals, h]

theorem collect_go (k : Str) :
    ∀ (ids : List Str) (acc : List (Str × List (Option Str))),
      lookupVs (ids.foldl (fun a id => addEntry a (parseId id).1 (parseId id).2) acc) k
        = mergeOpt (lookupVs acc k) (groupVals ids k) := by
  intro ids
  induction ids with
  | nil => intro acc; simp [groupVals, mergeOpt_nil]
  | cons id ids ih =>
    intro acc
    rw [List.foldl_cons, ih, groupVals_cons, mergeOpt_append]
    congr 1
    by_cases h : (parseId id).1 = k
    · rw [if_pos h, h, lookupVs_addEntry_self]
      cases hl : lookupVs acc k <;> simp [mergeOpt, hl]
    · rw [if_neg h, mergeOpt_nil, lookupVs_addEntry_ne acc _ k _ (fun hc => h hc.symm)]

theorem collectFilters_lookup (sel : List Str) (k : Str) :
    lookupVs (collectFilters sel) k =
      if (groupVals sel k).isEmpty then none else some (groupVals sel k) := by
  rw [collectFilters, collect_go k sel []]
  cases h : groupVals sel k <;> simp [mergeOpt, lookupVs, h]

/-- Keys of the grouped-filters association list. -/
def keysOf (l : List (Str × List (Option Str))) : List Str :=
  l.map (fun p => p.1)

theorem keysOf_appendVal (k : Str) (v : Option Str) :
    ∀ acc, keysOf (appendVal acc k v) = keysOf acc := by
  intro acc
  induction acc with
  | nil => rfl
  | cons p rest ih =>
    obtain ⟨k0, vs0⟩ := p
    by_cases hk : k0 = k
    · simp [appendVal, keysOf, hk]
    · simp only [appendVal, if_neg hk, keysOf, List.map_cons]
      exact congrArg (List.cons k0) ih

theorem lookupVs_eq_none_iff (k : Str) :
    ∀ acc, lookupVs acc k = none ↔ k ∉ keysOf acc := by
  intro acc
  induction acc with
  | nil => simp [lookupVs, keysOf]
  | cons p rest ih =>
    obtain ⟨k0, vs0⟩ := p
    by_cases hk : k0 = k
    · subst hk
      rw [lookupVs_cons_self]
      constructor
      · intro h; cases h
      · intro h
        exfalso
        apply h
        simp [keysOf]
    · have hk2 : k ≠ k0 := fun h => hk h.symm
      rw [lookupVs_cons_ne k0 k vs0 rest hk, ih]
      simp [keysOf, hk2]

theorem nodupKeys_addEntry (acc : List (Str × List (Option Str))) (k : Str)
    (v : Option Str) (h : (keysOf acc).Nodup) : (keysOf (addEntry acc k v)).Nodup := by
  unfold addEntry
  cases hl : lookupVs acc k with
  | some vs => rw [keysOf_appendVal]; exact h
  | none =>
    have hk : k ∉ keysOf acc := (lookupVs_eq_none_iff k acc).mp hl
    have he : keysOf (acc ++ [(k, [v])]) = keysOf acc ++ [k] := by simp [keysOf]
    rw [he, List.nodup_append]
    refine ⟨h, List.nodup_singleton k, ?_⟩
    intro a ha hb
    rw [List.mem_singleton] at hb
    subst hb
    exact hk ha

theorem collect_nodupKeys (sel : List Str) : (keysOf (collectFilters sel)).Nodup := by
  rw [collectFilters]
  have h : ∀ (ids : List Str) (acc : List (Str × List (Option Str))),
      (keysOf acc).Nodup →
      (keysOf (ids.foldl (fun a id => addEntry a (parseId id).1 (parseId id).2) acc)).Nodup := by
    intro ids
    induction ids with
    | nil => exact fun acc h => h
    | cons id ids ih =>
      intro acc hacc
      exact ih _ (nodupKeys_addEntry acc _ _ hacc)
  exact h sel [] (by simp [keysOf])

theorem mem_iff_lookupVs (k : Str) (vs : List (Option Str)) :
    ∀ l, (keysOf l).Nodup → ((k, vs) ∈ l ↔ lookupVs l k = some vs) := by
  intro l
  induction l with
  | nil =>
    intro _
    constructor
    · intro h; exact absurd h (List.not_mem_nil _)
    · intro h; cases h
  | cons p rest ih =>
    obtain ⟨k0, vs0⟩ := p
    intro hnd
    have hnd1 : (keysOf rest).Nodup := (List.nodup_cons.mp hnd).2
    have hk0 : k0 ∉ keysOf rest := (List.nodup_cons.mp hnd).1
    by_cases hk : k0 = k
    · subst hk
      rw [List.mem_cons, lookupVs_cons_self]
      constructor
      · rintro (h | h)
        · rw [Prod.mk.injEq] at h
          exact congrArg some h.2.symm
        · have hmem : k0 ∈ keysOf rest := List.mem_map_of_mem (fun p => p.1) h
          exact absurd hmem hk0
      · intro h
        rw [Option.some.injEq] at h
        exact Or.inl (by rw [h])
    · rw [List.mem_cons, lookupVs_cons_ne k0 k vs0 rest hk, ← ih hnd1]
      constructor
      · rintro (h | h)
        · rw [Prod.mk.injEq] at h
          exact absurd h.1.symm hk
        · exact h
      · exact Or.inr


/-! ### Spec-side filter evaluator (the wording of the specification) -/

theorem bool_eq_of_iff {a b : Bool} (h : a = true ↔ b = true) : a = b := by
  cases a <;> cases b <;> simp_all

theorem all_iff_lookupVs (filters : List (Str × List (Option Str)))
    (hnd : (keysOf filters).Nodup) (f : Str × List (Option Str) → Bool) :
    filters.all f = true ↔ ∀ k vs, lookupVs filters k = some vs → f (k, vs) = true := by
  rw [List.all_eq_true]
  constructor
  · intro h k vs hl
    exact h (k, vs) ((mem_iff_lookupVs k vs filters hnd).mpr hl)
  · intro h p hp
    obtain ⟨k, vs⟩ := p
    exact h k vs ((mem_iff_lookupVs k vs filters hnd).mp hp)

/-- Spec-side per-facet record match, exactly as the specification words it:
membership for scene/action, membership with scalar-as-singleton for robot,
exact equality for the end effector, and hierarchy membership at any depth
for object. -/
def specValueMatch (key v : Str) (ds : Dataset) : Bool :=
  if key = sceneKey then includes ds.scenes v
  else if key = robotKey then includes (robots ds) v
  else if key = endKey then decide (ds.endEffector = some v)
  else if key = actionKey then includes ds.actions v
  else if key = objectKey then ds.objects.any (fun obj => includes obj.hierarchy v)
  else false

/-- Spec-side: values selected for a facet, from a selection given as
(facet, value) pairs. -/
def selValuesFor (sel : List (Str × Str)) (key : Str) : List Str :=
  (sel.filter (fun p => decide (p.1 = key))).map (fun p => p.2)

/-- Spec-side record predicate of the claim: the query is empty or a
case-insensitive substring of the name, and every facet with at least one
selected value has at least one matching selected value. -/
def specPasses (sel : List (Str × Str)) (query : Str) (ds : Dataset) : Bool :=
  (query.isEmpty || lowerIncludes ds.name query) &&
    facetKeys.all (fun key =>
      (selValuesFor sel key).isEmpty ||
        (selValuesFor sel key).any (fun v => specValueMatch key v ds))

/-- The encoded identifiers a selection of (facet, value) pairs stores. -/
def encodeSel (sel : List (Str × Str)) : List Str :=
  sel.map (fun p => mkId p.1 p.2)

theorem facetKeys_no_colon : ∀ k ∈ facetKeys, ':' ∉ k := by decide

theorem groupVals_encode (k : Str) :
    ∀ sel : List (Str × Str), (∀ p ∈ sel, ':' ∉ p.1 ∧ ':' ∉ p.2) →
      groupVals (encodeSel sel) k = (selValuesFor sel k).map some := by
  intro sel
  induction sel with
  | nil => intro _; rfl
  | cons p sel ih =>
    intro h
    have hp := h p (List.mem_cons_self p sel)
    have hrest : ∀ q ∈ sel, ':' ∉ q.1 ∧ ':' ∉ q.2 :=
      fun q hq => h q (List.mem_cons_of_mem p hq)
    have hparse : parseId (mkId p.1 p.2) = (p.1, some p.2) :=
      parseId_mkId p.1 p.2 hp.1 hp.2
    have hgc : groupVals (encodeSel (p :: sel)) k =
        (if (parseId (mkId p.1 p.2)).1 = k then [(parseId (mkId p.1 p.2)).2] else []) ++
          groupVals (encodeSel sel) k := groupVals_cons _ _ k
    rw [hgc, hparse, ih hrest]
    by_cases hk : p.1 = k
    · simp [selValuesFor, hk]
    · simp [selValuesFor, hk]

theorem includes_map_some (values : List Str) (s : Str) :
    includes (values.map some) (some s) = includes values s := by
  apply bool_eq_of_iff
  rw [includes_iff, includes_iff, List.mem_map]
  constructor
  · rintro ⟨v, hv, he⟩
    rw [Option.some.injEq] at he
    exact he ▸ hv
  · intro hv
    exact ⟨s, hv, rfl⟩

theorem includes_map_some_opt (values : List Str) (x : Option Str) :
    includes (values.map some) x = values.any (fun v => decide (x = some v)) := by
  apply bool_eq_of_iff
  rw [includes_iff, List.any_eq_true, List.mem_map]
  constructor
  · rintro ⟨v, hv, he⟩
    exact ⟨v, hv, by rw [decide_eq_true_eq, he]⟩
  · rintro ⟨v, hv, he⟩
    rw [decide_eq_true_eq] at he
    exact ⟨v, hv, he.symm⟩

theorem facetMatch_map_some (key : Str) (values : List Str) (ds : Dataset) :
    facetMatch key (values.map some) ds =
      values.any (fun v => specValueMatch key v ds) := by
  apply bool_eq_of_iff
  unfold facetMatch specValueMatch
  by_cases h1 : key = sceneKey
  · subst h1
    simp [includes_map_some, includes_iff]
    tauto
  simp only [if_neg h1]
  by_cases h2 : key = robotKey
  · subst h2
    simp [includes_map_some, includes_iff, h1]
    tauto
  simp only [if_neg h2]
  by_cases h3 : key = endKey
  · subst h3
    simp [includes_map_some_opt, h1, h2]
  simp only [if_neg h3]
  by_cases h4 : key = actionKey
  · subst h4
    simp [includes_map_some, includes_iff, h1, h2, h3]
    tauto
  simp only [if_neg h4]
  by_cases h5 : key = objectKey
  · subst h5
    simp [includes_map_some, includes_iff, h1, h2, h3, h4]
    tauto
  simp only [if_neg h5]
  simp


theorem selValuesFor_ne_nil_key (sel : List (Str × Str)) (k : Str)
    (h : selValuesFor sel k ≠ []) : ∃ p ∈ sel, p.1 = k := by
  unfold selValuesFor at h
  cases hf : sel.filter (fun p => decide (p.1 = k)) with
  | nil => rw [hf] at h; exact absurd rfl h
  | cons p l =>
    have hp : p ∈ sel.filter (fun p => decide (p.1 = k)) := by
      rw [hf]; exact List.mem_cons_self p l
    rw [List.mem_filter] at hp
    exact ⟨p, hp.1, by simpa using hp.2⟩

theorem map_some_isEmpty_false (vals : List Str) (h : vals ≠ []) :
    (vals.map some).isEmpty = false := by
  cases vals with
  | nil => exact absurd rfl h
  | cons a l => rfl

theorem dsPasses_eq_specPasses (sel : List (Str × Str)) (q : Str) (ds : Dataset)
    (hkeys : ∀ p ∈ sel, p.1 ∈ facetKeys) (hcolon : ∀ p ∈ sel, ':' ∉ p.2) :
    dsPasses (collectFilters (encodeSel sel)) q ds = specPasses sel q ds := by
  have hcol : ∀ p ∈ sel, ':' ∉ p.1 ∧ ':' ∉ p.2 := fun p hp =>
    ⟨facetKeys_no_colon p.1 (hkeys p hp), hcolon p hp⟩
  unfold dsPasses specPasses
  congr 1
  apply bool_eq_of_iff
  rw [all_iff_lookupVs _ (collect_nodupKeys _)]
  constructor
  · intro h
    rw [List.all_eq_true]
    intro key hkey
    by_cases he : selValuesFor sel key = []
    · simp [he]
    · have hg : groupVals (encodeSel sel) key = (selValuesFor sel key).map some :=
        groupVals_encode key sel hcol
      have hlook : lookupVs (collectFilters (encodeSel sel)) key =
          some ((selValuesFor sel key).map some) := by
        rw [collectFilters_lookup, hg, if_neg]
        rw [map_some_isEmpty_false _ he]
        exact fun hc => Bool.false_ne_true hc
      have hm := h key _ hlook
      rw [facetMatch_map_some] at hm
      simp [hm]
  · intro h k vs hl
    rw [collectFilters_lookup] at hl
    by_cases hge : (groupVals (encodeSel sel) k).isEmpty = true
    · rw [if_pos hge] at hl; cases hl
    · rw [if_neg hge] at hl
      rw [Option.some.injEq] at hl
      subst hl
      rw [groupVals_encode k sel hcol] at hge ⊢
      have hne : selValuesFor sel k ≠ [] := by
        intro hnil
        rw [hnil] at hge
        exact hge rfl
      obtain ⟨p, hp, hpk⟩ := selValuesFor_ne_nil_key sel k hne
      have hk : k ∈ facetKeys := hpk ▸ hkeys p hp
      rw [List.all_eq_true] at h
      have := h k hk
      rw [Bool.or_eq_true] at this
      rcases this with hemp | hany
      · exact absurd ((List.isEmpty_iff).mp hemp) hne
      · rw [facetMatch_map_some]
        exact hany

theorem applyFilters_eq_spec_filter (c : List Dataset) (sel : List (Str × Str))
    (q : Str) (hkeys : ∀ p ∈ sel, p.1 ∈ facetKeys)
    (hcolon : ∀ p ∈ sel, ':' ∉ p.2) :
    applyFilters c (encodeSel sel) q = c.filter (specPasses sel q) := by
  unfold applyFilters
  apply List.filter_congr
  intro ds _
  exact dsPasses_eq_specPasses sel q ds hkeys hcolon


/-! ### Single-selection evaluation (the count invariant) -/

theorem specValueMatch_eq_affectedMatch (k v : Str) (ds : Dataset) :
    specValueMatch k v ds = affectedMatch ds k v := rfl

theorem collectFilters_single (f v : Str) (hf : ':' ∉ f) (hv : ':' ∉ v) :
    collectFilters [mkId f v] = [(f, [some v])] := by
  simp [collectFilters, addEntry, lookupVs, parseId_mkId f v hf hv]

theorem dsPasses_single (f v : Str) (ds : Dataset) :
    dsPasses [(f, [some v])] [] ds = affectedMatch ds f v := by
  have h1 : dsPasses [(f, [some v])] [] ds = facetMatch f [some v] ds := by
    simp [dsPasses]
  have h2 : facetMatch f ([v].map some) ds = [v].any (fun w => specValueMatch f w ds) :=
    facetMatch_map_some f [v] ds
  simp only [List.map_cons, List.map_nil] at h2
  rw [h1, h2]
  simp [specValueMatch_eq_affectedMatch]

theorem calculateAffectedCount_eq_applyFilters (c : List Dataset) (f v : Str)
    (hf : ':' ∉ f) (hv : ':' ∉ v) :
    calculateAffectedCount c f v = (applyFilters c [mkId f v] []).length := by
  unfold applyFilters calculateAffectedCount
  rw [collectFilters_single f v hf hv, List.countP_eq_length_filter]
  congr 1
  apply List.filter_congr
  intro ds _
  exact (dsPasses_single f v ds).symm


/-! ### Hierarchy insertion lemmas -/

theorem lookupNode_setFirst_eq :
    ∀ (m : HMap) (k : Str) (n x : HNode),
      lookupNode m k = some n → lookupNode (setFirst m k x) k = some x := by
  intro m
  induction m with
  | nil => intro k n x h; cases h
  | cons p rest ih =>
    obtain ⟨k0, n0⟩ := p
    intro k n x h
    by_cases hk : k0 = k
    · subst hk
      simp [setFirst, lookupNode]
    · simp only [lookupNode, if_neg hk] at h
      simp only [setFirst, if_neg hk, lookupNode, if_neg hk]
      exact ih k n x h

theorem lookupNode_setFirst_ne :
    ∀ (m : HMap) (k l : Str) (x : HNode), l ≠ k →
      lookupNode (setFirst m k x) l = lookupNode m l := by
  intro m
  induction m with
  | nil => intro _ _ _ _; rfl
  | cons p rest ih =>
    obtain ⟨k0, n0⟩ := p
    intro k l x hne
    by_cases hk : k0 = k
    · subst hk
      have h2 : k0 ≠ l := fun hc => hne hc.symm
      simp [setFirst, lookupNode, h2]
    · simp only [setFirst, if_neg hk, lookupNode]
      by_cases h0 : k0 = l <;> simp [h0, ih k l x hne]

theorem lookupNode_append_some :
    ∀ (m m2 : HMap) (l : Str) (n : HNode),
      lookupNode m l = some n → lookupNode (m ++ m2) l = some n := by
  intro m
  induction m with
  | nil => intro _ _ _ h; cases h
  | cons p rest ih =>
    obtain ⟨k0, n0⟩ := p
    intro m2 l n h
    by_cases hk : k0 = l
    · subst hk
      simp only [lookupNode, if_pos rfl] at h ⊢
      exact h
    · simp only [lookupNode, if_neg hk] at h
      simp only [List.cons_append, lookupNode, if_neg hk]
      exact ih m2 l n h

theorem lookupNode_append_none :
    ∀ (m m2 : HMap) (l : Str),
      lookupNode m l = none → lookupNode (m ++ m2) l = lookupNode m2 l := by
  intro m
  induction m with
  | nil => intro _ _ _; rfl
  | cons p rest ih =>
    obtain ⟨k0, n0⟩ := p
    intro m2 l h
    by_cases hk : k0 = l
    · subst hk
      simp [lookupNode] at h
    · simp only [lookupNode, if_neg hk] at h
      simp only [List.cons_append, lookupNode, if_neg hk]
      exact ih m2 l h

theorem nodeAt_nil_map (p : List Str) (hp : p ≠ []) : nodeAt ([] : HMap) p = none := by
  cases p with
  | nil => exact absurd rfl hp
  | cons l rest => simp [nodeAt, lookupNode]

theorem nodeAt_cons_some (m : HMap) (l : Str) (rest : List Str) (n : HNode)
    (h : lookupNode m l = some n) :
    nodeAt m (l :: rest) = if rest = [] then some n else nodeAt n.children rest := by
  simp [nodeAt, h]

theorem nodeAt_cons_none (m : HMap) (l : Str) (rest : List Str)
    (h : lookupNode m l = none) :
    nodeAt m (l :: rest) = none := by
  simp [nodeAt, h]

theorem nodeAt_insertPath_outside :
    ∀ (p q : List Str) (m : HMap),
      ¬ p <+: q → nodeAt (insertPath m q) p = nodeAt m p := by
  intro p
  induction p with
  | nil => intro q m h; exact absurd List.nil_prefix h
  | cons l p2 ih =>
    intro q m h
    cases q with
    | nil => rfl
    | cons k q2 =>
      simp only [insertPath]
      cases hlk : lookupNode m k with
      | some n =>
        by_cases heq : l = k
        · subst heq
          have hp2 : ¬ p2 <+: q2 := fun hp => h (List.cons_prefix_cons.mpr ⟨rfl, hp⟩)
          have hp2ne : p2 ≠ [] := by
            intro hnil
            subst hnil
            exact hp2 List.nil_prefix
          have hL := lookupNode_setFirst_eq m l n
            (HNode.mk n.isLeaf (insertPath n.children q2)) hlk
          rw [nodeAt_cons_some _ _ _ _ hL, nodeAt_cons_some _ _ _ _ hlk,
            if_neg hp2ne, if_neg hp2ne]
          exact ih q2 n.children hp2
        · have hL := lookupNode_setFirst_ne m k l
            (HNode.mk n.isLeaf (insertPath n.children q2)) heq
          cases hl : lookupNode m l with
          | some n2 =>
            rw [nodeAt_cons_some _ _ _ _ (hL.trans hl), nodeAt_cons_some _ _ _ _ hl]
          | none =>
            rw [nodeAt_cons_none _ _ _ (hL.trans hl), nodeAt_cons_none _ _ _ hl]
      | none =>
        cases hl : lookupNode m l with
        | some n2 =>
          rw [nodeAt_cons_some _ _ _ _ (lookupNode_append_some m _ l n2 hl),
            nodeAt_cons_some _ _ _ _ hl]
        | none =>
          have happ := lookupNode_append_none m
            [(k, HNode.mk q2.isEmpty (insertPath [] q2))] l hl
          by_cases heq : l = k
          · subst heq
            have hp2 : ¬ p2 <+: q2 := fun hp => h (List.cons_prefix_cons.mpr ⟨rfl, hp⟩)
            have hp2ne : p2 ≠ [] := by
              intro hnil
              subst hnil
              exact hp2 List.nil_prefix
            have single : lookupNode [(l, HNode.mk q2.isEmpty (insertPath [] q2))] l =
                some (HNode.mk q2.isEmpty (insertPath [] q2)) := by
              simp [lookupNode]
            rw [nodeAt_cons_some _ _ _ _ (happ.trans single), nodeAt_cons_none _ _ _ hl,
              if_neg hp2ne]
            show nodeAt (insertPath [] q2) p2 = none
            rw [ih q2 [] hp2]
            exact nodeAt_nil_map p2 hp2ne
          · have h2 : k ≠ l := fun hc => heq hc.symm
            have single : lookupNode [(k, HNode.mk q2.isEmpty (insertPath [] q2))] l =
                none := by
              simp [lookupNode, h2]
            rw [nodeAt_cons_none _ _ _ (happ.trans single), nodeAt_cons_none _ _ _ hl]

theorem nodeAt_insertPath_prefix_some :
    ∀ (p q : List Str) (m : HMap) (n : HNode), p <+: q →
      nodeAt m p = some n →
      (nodeAt (insertPath m q) p).map HNode.isLeaf = some n.isLeaf := by
  intro p
  induction p with
  | nil => intro q m n _ hat; cases hat
  | cons l p2 ih =>
    intro q m n hpre hat
    cases q with
    | nil => exact absurd (List.eq_nil_of_prefix_nil hpre) (by simp)
    | cons k q2 =>
      obtain ⟨hlk, hp2q2⟩ := List.cons_prefix_cons.mp hpre
      subst hlk
      cases hlook : lookupNode m l with
      | none => rw [nodeAt_cons_none _ _ _ hlook] at hat; cases hat
      | some n1 =>
        simp only [insertPath, hlook]
        have hL := lookupNode_setFirst_eq m l n1
          (HNode.mk n1.isLeaf (insertPath n1.children q2)) hlook
        rw [nodeAt_cons_some _ _ _ _ hlook] at hat
        rw [nodeAt_cons_some _ _ _ _ hL]
        by_cases hp2 : p2 = []
        · subst hp2
          rw [if_pos rfl] at hat ⊢
          rw [Option.some.injEq] at hat
          subst hat
          simp [HNode.isLeaf]
        · rw [if_neg hp2] at hat ⊢
          exact ih q2 n1.children n hp2q2 hat

theorem nodeAt_insertPath_prefix_none :
    ∀ (p q : List Str) (m : HMap), p ≠ [] → p <+: q →
      nodeAt m p = none →
      (nodeAt (insertPath m q) p).map HNode.isLeaf = some (decide (p = q)) := by
  intro p
  induction p with
  | nil => intro q m hne _ _; exact absurd rfl hne
  | cons l p2 ih =>
    intro q m _ hpre hat
    cases q with
    | nil => exact absurd (List.eq_nil_of_prefix_nil hpre) (by simp)
    | cons k q2 =>
      obtain ⟨hlk, hp2q2⟩ := List.cons_prefix_cons.mp hpre
      subst hlk
      have hdec : decide (p2 = q2) = decide (l :: p2 = l :: q2) := by simp
      cases hlook : lookupNode m l with
      | some n1 =>
        simp only [insertPath, hlook]
        have hL := lookupNode_setFirst_eq m l n1
          (HNode.mk n1.isLeaf (insertPath n1.children q2)) hlook
        rw [nodeAt_cons_some _ _ _ _ hlook] at hat
        by_cases hp2 : p2 = []
        · subst hp2
          rw [if_pos rfl] at hat
          cases hat
        · rw [if_neg hp2] at hat
          rw [nodeAt_cons_some _ _ _ _ hL, if_neg hp2]
          rw [← hdec]
          exact ih q2 n1.children hp2 hp2q2 hat
      | none =>
        simp only [insertPath, hlook]
        have happ := lookupNode_append_none m
          [(l, HNode.mk q2.isEmpty (insertPath [] q2))] l hlook
        have single : lookupNode [(l, HNode.mk q2.isEmpty (insertPath [] q2))] l =
            some (HNode.mk q2.isEmpty (insertPath [] q2)) := by
          simp [lookupNode]
        have hL := happ.trans single
        rw [nodeAt_cons_some _ _ _ _ hL]
        by_cases hp2 : p2 = []
        · subst hp2
          rw [if_pos rfl]
          have hleaf : (HNode.mk q2.isEmpty (insertPath [] q2)).isLeaf =
              decide ([l] = l :: q2) := by
            cases q2 <;> simp [HNode.isLeaf]
          simp [hleaf]
        · rw [if_neg hp2]
          show (nodeAt (insertPath [] q2) p2).map HNode.isLeaf = _
          rw [← hdec]
          exact ih q2 [] hp2 hp2q2 (nodeAt_nil_map p2 hp2)


/-! ### The built tree: isLeaf invariant and node existence -/

/-- The first inserted path that the node at `p` lies on (i.e. that has `p`
as a prefix), if any. -/
def firstReach (ps : List (List Str)) (p : List Str) : Option (List Str) :=
  ps.find? (fun q => decide (p <+: q))

theorem buildTree_append (ps : List (List Str)) (q : List Str) :
    buildTree (ps ++ [q]) = insertPath (buildTree ps) q := by
  simp [buildTree, List.foldl_append]

theorem firstReach_append_of_some (ps qs : List (List Str)) (p q0 : List Str)
    (h : firstReach ps p = some q0) : firstReach (ps ++ qs) p = some q0 := by
  induction ps with
  | nil => cases h
  | cons r ps ih =>
    rw [List.cons_append]
    by_cases hr : p <+: r
    · have hb : (fun q => decide (p <+: q)) r = true := by simpa using hr
      rw [firstReach,
        @List.find?_cons_of_pos _ (fun q => decide (p <+: q)) r (ps ++ qs) hb]
      rw [firstReach, @List.find?_cons_of_pos _ (fun q => decide (p <+: q)) r ps hb] at h
      exact h
    · have hb : ¬ (fun q => decide (p <+: q)) r = true := by simpa using hr
      rw [firstReach,
        @List.find?_cons_of_neg _ (fun q => decide (p <+: q)) r (ps ++ qs) hb]
      rw [firstReach, @List.find?_cons_of_neg _ (fun q => decide (p <+: q)) r ps hb] at h
      exact ih h

theorem firstReach_append_of_none (ps qs : List (List Str)) (p : List Str)
    (h : firstReach ps p = none) : firstReach (ps ++ qs) p = firstReach qs p := by
  induction ps with
  | nil => rfl
  | cons r ps ih =>
    rw [List.cons_append]
    by_cases hr : p <+: r
    · have hb : (fun q => decide (p <+: q)) r = true := by simpa using hr
      rw [firstReach, @List.find?_cons_of_pos _ (fun q => decide (p <+: q)) r ps hb] at h
      cases h
    · have hb : ¬ (fun q => decide (p <+: q)) r = true := by simpa using hr
      rw [firstReach,
        @List.find?_cons_of_neg _ (fun q => decide (p <+: q)) r (ps ++ qs) hb]
      rw [firstReach, @List.find?_cons_of_neg _ (fun q => decide (p <+: q)) r ps hb] at h
      exact ih h

theorem firstReach_single (q p : List Str) :
    firstReach [q] p = if p <+: q then some q else none := by
  by_cases h : p <+: q
  · have hb : (fun r => decide (p <+: r)) q = true := by simpa using h
    rw [firstReach, @List.find?_cons_of_pos _ (fun r => decide (p <+: r)) q [] hb,
      if_pos h]
  · have hb : ¬ (fun r => decide (p <+: r)) q = true := by simpa using h
    rw [firstReach, @List.find?_cons_of_neg _ (fun r => decide (p <+: r)) q [] hb,
      if_neg h]
    rfl

/-- Main invariant of the built hierarchy: the node at path `p` exists with
flag `b` iff the first inserted path through `p` exists, and `b` records
whether that first path ended exactly at `p`. -/
theorem nodeAt_buildTree_isLeaf :
    ∀ (ps : List (List Str)) (p : List Str), p ≠ [] →
      (nodeAt (buildTree ps) p).map HNode.isLeaf =
        (firstReach ps p).map (fun q => decide (q = p)) := by
  intro ps
  induction ps using List.reverseRecOn with
  | nil =>
    intro p hp
    rw [show buildTree [] = [] from rfl, nodeAt_nil_map p hp]
    rfl
  | append_singleton ps q ih =>
    intro p hp
    rw [buildTree_append]
    by_cases hpre : p <+: q
    · cases hat : nodeAt (buildTree ps) p with
      | some n =>
        rw [nodeAt_insertPath_prefix_some p q _ n hpre hat]
        have hih := ih p hp
        rw [hat] at hih
        cases hfr : firstReach ps p with
        | none => rw [hfr] at hih; cases hih
        | some q0 =>
          rw [firstReach_append_of_some ps [q] p q0 hfr]
          rw [hfr] at hih
          exact hih
      | none =>
        rw [nodeAt_insertPath_prefix_none p q _ hp hpre hat]
        have hih := ih p hp
        rw [hat] at hih
        cases hfr : firstReach ps p with
        | some q0 => rw [hfr] at hih; cases hih
        | none =>
          rw [firstReach_append_of_none ps [q] p hfr, firstReach_single, if_pos hpre]
          have hcomm : decide (p = q) = decide (q = p) :=
            decide_eq_decide.mpr ⟨Eq.symm, Eq.symm⟩
          simp [hcomm]
    · rw [nodeAt_insertPath_outside p q _ hpre, ih p hp]
      cases hfr : firstReach ps p with
      | some q0 => rw [firstReach_append_of_some ps [q] p q0 hfr]
      | none =>
        rw [firstReach_append_of_none ps [q] p hfr, firstReach_single, if_neg hpre]

/-- Node existence in the built hierarchy. -/
theorem nodeAt_buildTree_isSome (ps : List (List Str)) (p : List Str) (hp : p ≠ []) :
    (nodeAt (buildTree ps) p).isSome = true ↔ ∃ q ∈ ps, p <+: q := by
  have h := nodeAt_buildTree_isLeaf ps p hp
  constructor
  · intro hs
    cases hat : nodeAt (buildTree ps) p with
    | none => rw [hat] at hs; cases hs
    | some n =>
      rw [hat] at h
      cases hfr : firstReach ps p with
      | none => rw [hfr] at h; cases h
      | some q0 =>
        exact ⟨q0, List.mem_of_find?_eq_some hfr, by simpa using List.find?_some hfr⟩
  · rintro ⟨q, hq, hpre⟩
    cases hat : nodeAt (buildTree ps) p with
    | some n => rfl
    | none =>
      rw [hat] at h
      cases hfr : firstReach ps p with
      | some q0 => rw [hfr] at h; cases h
      | none =>
        have hnone := List.find?_eq_none.mp hfr q hq
        exact absurd (by simpa using hpre) hnone


/-! ### Leaf counting -/

/-- Contribution of one hierarchy entry to `countHierarchyItems`. -/
def leafContrib : HNode → Nat
  | HNode.mk _ ch => if ch.isEmpty then 1 else countLeaves ch

theorem countLeaves_cons (l : Str) (n : HNode) (rest : HMap) :
    countLeaves ((l, n) :: rest) = leafContrib n + countLeaves rest := by
  cases n
  simp [countLeaves, leafContrib]

theorem countLeaves_append : ∀ m1 m2 : HMap,
    countLeaves (m1 ++ m2) = countLeaves m1 + countLeaves m2 := by
  intro m1
  induction m1 with
  | nil => intro m2; simp [countLeaves]
  | cons p rest ih =>
    intro m2
    obtain ⟨l, n⟩ := p
    rw [List.cons_append, countLeaves_cons, countLeaves_cons, ih]
    omega

theorem leafContrib_of_children_ne (n : HNode) (h : n.children ≠ []) :
    leafContrib n = countLeaves n.children := by
  cases n with
  | mk b ch =>
    simp only [HNode.children] at h
    cases ch with
    | nil => exact absurd rfl h
    | cons a t => simp [leafContrib, HNode.children]

theorem countLeaves_setFirst :
    ∀ (m : HMap) (l : Str) (n x : HNode), lookupNode m l = some n →
      countLeaves (setFirst m l x) + leafContrib n = countLeaves m + leafContrib x := by
  intro m
  induction m with
  | nil => intro l n x h; cases h
  | cons p rest ih =>
    obtain ⟨k0, n0⟩ := p
    intro l n x h
    by_cases hk : k0 = l
    · subst hk
      simp only [lookupNode] at h
      simp only [if_true, eq_self_iff_true, Option.some.injEq] at h
      subst h
      have hsf : setFirst ((k0, n0) :: rest) k0 x = (k0, x) :: rest := by
        simp [setFirst]
      rw [hsf, countLeaves_cons, countLeaves_cons]
      omega
    · simp only [lookupNode, if_neg hk] at h
      simp only [setFirst, if_neg hk]
      rw [countLeaves_cons, countLeaves_cons]
      have := ih l n x h
      omega

theorem setFirst_self :
    ∀ (m : HMap) (l : Str) (n : HNode), lookupNode m l = some n →
      setFirst m l n = m := by
  intro m
  induction m with
  | nil => intro l n h; cases h
  | cons p rest ih =>
    obtain ⟨k0, n0⟩ := p
    intro l n h
    by_cases hk : k0 = l
    · subst hk
      simp only [lookupNode] at h
      simp only [if_true, eq_self_iff_true, Option.some.injEq] at h
      subst h
      simp [setFirst]
    · simp only [lookupNode, if_neg hk] at h
      simp only [setFirst, if_neg hk]
      rw [ih l n h]

theorem insertPath_of_present :
    ∀ (q : List Str) (m : HMap), (nodeAt m q).isSome = true → insertPath m q = m := by
  intro q
  induction q with
  | nil => intro m _; rfl
  | cons l rest ih =>
    intro m h
    cases hlook : lookupNode m l with
    | none => rw [nodeAt_cons_none m l rest hlook] at h; cases h
    | some n =>
      simp only [insertPath, hlook]
      by_cases hrest : rest = []
      · subst hrest
        rw [show insertPath n.children [] = n.children from rfl, HNode.eta]
        exact setFirst_self m l n hlook
      · rw [nodeAt_cons_some m l rest n hlook, if_neg hrest] at h
        rw [ih n.children h, HNode.eta]
        exact setFirst_self m l n hlook

theorem insertPath_nil_ne_nil (rest : List Str) (h : rest ≠ []) :
    insertPath ([] : HMap) rest ≠ [] := by
  cases rest with
  | nil => exact absurd rfl h
  | cons l rest2 => simp [insertPath, lookupNode]

theorem countLeaves_freshChain : ∀ rest : List Str, rest ≠ [] →
    countLeaves (insertPath ([] : HMap) rest) = 1 := by
  intro rest
  induction rest with
  | nil => intro h; exact absurd rfl h
  | cons l rest2 ih =>
    intro _
    show countLeaves (insertPath [] (l :: rest2)) = 1
    simp only [insertPath, lookupNode, List.nil_append]
    rw [countLeaves_cons]
    show leafContrib (HNode.mk rest2.isEmpty (insertPath [] rest2)) + countLeaves [] = 1
    cases hr2 : rest2 with
    | nil => simp [leafContrib, countLeaves, insertPath]
    | cons a t =>
      have hne : insertPath ([] : HMap) rest2 ≠ [] := by
        rw [hr2]
        exact insertPath_nil_ne_nil (a :: t) (by simp)
      have hc : countLeaves (insertPath ([] : HMap) rest2) = 1 := ih (by simp [hr2])
      rw [← hr2]
      have hlc : leafContrib (HNode.mk rest2.isEmpty (insertPath [] rest2)) =
          countLeaves (insertPath [] rest2) :=
        leafContrib_of_children_ne _ hne
      rw [hlc, hc]
      simp [countLeaves]

theorem setFirst_ne_nil (m : HMap) (l : Str) (x : HNode) (h : m ≠ []) :
    setFirst m l x ≠ [] := by
  cases m with
  | nil => exact absurd rfl h
  | cons p rest =>
    obtain ⟨k0, n0⟩ := p
    by_cases hk : k0 = l <;> simp [setFirst, hk]

theorem insertPath_ne_nil (q : List Str) (m : HMap) (h : m ≠ []) :
    insertPath m q ≠ [] := by
  cases q with
  | nil => exact h
  | cons l rest =>
    simp only [insertPath]
    cases hlook : lookupNode m l with
    | some n => exact setFirst_ne_nil m l _ h
    | none => simp

theorem nodeAt_append_singleton :
    ∀ (r : List Str) (m : HMap) (l : Str), r ≠ [] →
      nodeAt m (r ++ [l]) = (nodeAt m r).bind (fun n => lookupNode n.children l) := by
  intro r
  induction r with
  | nil => intro m l h; exact absurd rfl h
  | cons x r2 ih =>
    intro m l _
    cases hlook : lookupNode m x with
    | none =>
      rw [List.cons_append, nodeAt_cons_none m x _ hlook, nodeAt_cons_none m x _ hlook]
      rfl
    | some n =>
      by_cases hr2 : r2 = []
      · subst hr2
        rw [List.cons_append, List.nil_append,
          nodeAt_cons_some m x [l] n hlook, if_neg (by simp : ¬ ([l] : List Str) = []),
          nodeAt_cons_some m x [] n hlook, if_pos rfl]
        cases hc : lookupNode n.children l with
        | none => rw [nodeAt_cons_none _ _ _ hc]; exact hc.symm
        | some n2 => rw [nodeAt_cons_some _ _ _ _ hc, if_pos rfl]; exact hc.symm
      · rw [List.cons_append,
          nodeAt_cons_some m x (r2 ++ [l]) n hlook,
          if_neg (by simp [hr2] : ¬ r2 ++ [l] = []),
          nodeAt_cons_some m x r2 n hlook, if_neg hr2]
        exact ih n.children l hr2

theorem countLeaves_insertPath_new :
    ∀ (q : List Str) (m : HMap), q ≠ [] → nodeAt m q = none →
      (∀ r n, r <+: q → nodeAt m r = some n → n.children ≠ []) →
      countLeaves (insertPath m q) = countLeaves m + 1 := by
  intro q
  induction q with
  | nil => intro m h _ _; exact absurd rfl h
  | cons l rest ih =>
    intro m _ hat hcond
    cases hlook : lookupNode m l with
    | none =>
      simp only [insertPath, hlook]
      rw [countLeaves_append, countLeaves_cons]
      have hlc : leafContrib (HNode.mk rest.isEmpty (insertPath [] rest)) +
          countLeaves ([] : HMap) = 1 := by
        cases rest with
        | nil => simp [leafContrib, countLeaves, insertPath]
        | cons a t =>
          have hne : insertPath ([] : HMap) (a :: t) ≠ [] :=
            insertPath_nil_ne_nil (a :: t) (by simp)
          have hfc : countLeaves (insertPath ([] : HMap) (a :: t)) = 1 :=
            countLeaves_freshChain (a :: t) (by simp)
          have hl2 : leafContrib (HNode.mk (a :: t : List Str).isEmpty
              (insertPath [] (a :: t))) = countLeaves (insertPath ([] : HMap) (a :: t)) :=
            leafContrib_of_children_ne _ (by simpa [HNode.children] using hne)
          rw [hl2, hfc]
          simp [countLeaves]
      rw [hlc]
    | some n =>
      by_cases hrest : rest = []
      · subst hrest
        rw [nodeAt_cons_some m l [] n hlook, if_pos rfl] at hat
        cases hat
      · rw [nodeAt_cons_some m l rest n hlook, if_neg hrest] at hat
        have hch : n.children ≠ [] := by
          apply hcond [l] n
          · exact List.cons_prefix_cons.mpr ⟨rfl, List.nil_prefix⟩
          · rw [nodeAt_cons_some m l [] n hlook, if_pos rfl]
        have hcond2 : ∀ r2 n2, r2 <+: rest → nodeAt n.children r2 = some n2 →
            n2.children ≠ [] := by
          intro r2 n2 hpre hat2
          cases hr2 : r2 with
          | nil => rw [hr2] at hat2; cases hat2
          | cons b u =>
            apply hcond (l :: r2) n2
            · exact List.cons_prefix_cons.mpr ⟨rfl, hpre⟩
            · rw [nodeAt_cons_some m l r2 n hlook, if_neg (by simp [hr2])]
              exact hat2
        have hih := ih n.children hrest hat hcond2
        simp only [insertPath, hlook]
        have hset := countLeaves_setFirst m l n
          (HNode.mk n.isLeaf (insertPath n.children rest)) hlook
        have hch2 : insertPath n.children rest ≠ [] :=
          insertPath_ne_nil rest n.children hch
        have hlc1 : leafContrib n = countLeaves n.children :=
          leafContrib_of_children_ne n hch
        have hlc2 : leafContrib (HNode.mk n.isLeaf (insertPath n.children rest)) =
            countLeaves (insertPath n.children rest) :=
          leafContrib_of_children_ne _ (by simpa [HNode.children] using hch2)
        rw [hlc1, hlc2, hih] at hset
        omega


theorem prefix_proper_ext (r p : List Str) (hpre : r <+: p) (hne : r ≠ p) :
    ∃ l, r ++ [l] <+: p := by
  obtain ⟨t, ht⟩ := hpre
  cases t with
  | nil =>
    exfalso
    apply hne
    simpa using ht
  | cons l t2 =>
    refine ⟨l, t2, ?_⟩
    rw [List.append_assoc]
    simpa using ht

/-- Under the no-nesting condition, every insertion of an unseen path adds
exactly one childless node, so childless nodes count the distinct paths. -/
theorem countLeaves_buildTree :
    ∀ ps : List (List Str), (∀ p ∈ ps, p ≠ []) →
      (∀ p ∈ ps, ∀ q ∈ ps, p <+: q → p = q) →
      countLeaves (buildTree ps) = ps.toFinset.card := by
  intro ps
  induction ps using List.reverseRecOn with
  | nil => intro _ _; simp [buildTree, countLeaves]
  | append_singleton ps q ih =>
    intro hne hpp
    have hne2 : ∀ p ∈ ps, p ≠ [] := fun p hp => hne p (List.mem_append_left _ hp)
    have hpp2 : ∀ p ∈ ps, ∀ r ∈ ps, p <+: r → p = r := fun p hp r hr h =>
      hpp p (List.mem_append_left _ hp) r (List.mem_append_left _ hr) h
    have hqmem : q ∈ ps ++ [q] := List.mem_append_right _ (List.mem_singleton_self q)
    have hqne : q ≠ [] := hne q hqmem
    rw [buildTree_append]
    by_cases hq : q ∈ ps
    · have hsome : (nodeAt (buildTree ps) q).isSome = true :=
        (nodeAt_buildTree_isSome ps q hqne).mpr ⟨q, hq, List.prefix_rfl⟩
      rw [insertPath_of_present q _ hsome, ih hne2 hpp2]
      have htf : (ps ++ [q]).toFinset = ps.toFinset := by
        rw [List.toFinset_append]
        exact Finset.union_eq_left.mpr (by simp [hq])
      rw [htf]
    · have hat : nodeAt (buildTree ps) q = none := by
        cases h : nodeAt (buildTree ps) q with
        | none => rfl
        | some n =>
          have hs : (nodeAt (buildTree ps) q).isSome = true := by simp [h]
          obtain ⟨p, hp, hqp⟩ := (nodeAt_buildTree_isSome ps q hqne).mp hs
          have heq := hpp q hqmem p (List.mem_append_left _ hp) hqp
          exact absurd (heq ▸ hp) hq
      have hcond : ∀ r n, r <+: q → nodeAt (buildTree ps) r = some n →
          n.children ≠ [] := by
        intro r n hpre hat2
        have hrne : r ≠ [] := by
          intro h0
          rw [h0] at hat2
          exact Option.noConfusion hat2
        have hrsome : (nodeAt (buildTree ps) r).isSome = true := by simp [hat2]
        obtain ⟨p, hp, hrp⟩ := (nodeAt_buildTree_isSome ps r hrne).mp hrsome
        by_cases hreq : r = p
        · subst hreq
          have heq := hpp r (List.mem_append_left _ hp) q hqmem hpre
          exact absurd (heq ▸ hp) hq
        · obtain ⟨l, hext⟩ := prefix_proper_ext r p hrp hreq
          have hextne : r ++ [l] ≠ [] := by simp
          have hextsome : (nodeAt (buildTree ps) (r ++ [l])).isSome = true :=
            (nodeAt_buildTree_isSome ps _ hextne).mpr ⟨p, hp, hext⟩
          rw [nodeAt_append_singleton r _ l hrne, hat2] at hextsome
          have h2 : (lookupNode n.children l).isSome = true := hextsome
          intro hchnil
          rw [hchnil] at h2
          simp [lookupNode] at h2
      rw [countLeaves_insertPath_new q _ hqne hat hcond, ih hne2 hpp2]
      have htf : (ps ++ [q]).toFinset = insert q ps.toFinset := by
        rw [List.toFinset_append, Finset.union_comm]
        exact (Finset.insert_eq q ps.toFinset).symm
      rw [htf, Finset.card_insert_of_not_mem (by simp [hq])]


/-! ### The facet index built by buildFilterGroups -/

theorem buildFilterGroups_scene :
    ∀ (c : List Dataset) (g : FilterGroups),
      (c.foldl addDataset g).sceneValues =
        c.foldl (fun acc ds => ds.scenes.foldl setAdd acc) g.sceneValues := by
  intro c
  induction c with
  | nil => intro g; rfl
  | cons ds c ih =>
    intro g
    rw [List.foldl_cons, List.foldl_cons, ih]
    rfl

theorem buildFilterGroups_robot :
    ∀ (c : List Dataset) (g : FilterGroups),
      (c.foldl addDataset g).robotValues =
        c.foldl (fun acc ds =>
          if robotTruthy ds then (robots ds).foldl setAdd acc else acc)
          g.robotValues := by
  intro c
  induction c with
  | nil => intro g; rfl
  | cons ds c ih =>
    intro g
    rw [List.foldl_cons, List.foldl_cons, ih]
    rfl

theorem buildFilterGroups_end :
    ∀ (c : List Dataset) (g : FilterGroups),
      (c.foldl addDataset g).endValues =
        c.foldl (fun acc ds =>
          match ds.endEffector with
          | some e => if e.isEmpty then acc else setAdd acc e
          | none => acc) g.endValues := by
  intro c
  induction c with
  | nil => intro g; rfl
  | cons ds c ih =>
    intro g
    rw [List.foldl_cons, List.foldl_cons, ih]
    rfl

theorem buildFilterGroups_action :
    ∀ (c : List Dataset) (g : FilterGroups),
      (c.foldl addDataset g).actionValues =
        c.foldl (fun acc ds => ds.actions.foldl setAdd acc) g.actionValues := by
  intro c
  induction c with
  | nil => intro g; rfl
  | cons ds c ih =>
    intro g
    rw [List.foldl_cons, List.foldl_cons, ih]
    rfl

/-- All object hierarchy paths of the catalog, in catalog order. -/
def objPaths (c : List Dataset) : List (List Str) :=
  c.flatMap (fun ds => ds.objects.map (fun o => o.hierarchy))

theorem buildFilterGroups_object :
    ∀ (c : List Dataset) (g : FilterGroups),
      (c.foldl addDataset g).objectValues = (objPaths c).foldl insertPath g.objectValues := by
  intro c
  induction c with
  | nil => intro g; rfl
  | cons ds c ih =>
    intro g
    rw [List.foldl_cons, ih]
    show (objPaths c).foldl insertPath
        (ds.objects.foldl (fun h obj => insertPath h obj.hierarchy) g.objectValues) = _
    rw [show objPaths (ds :: c) = ds.objects.map (fun o => o.hierarchy) ++ objPaths c
        from List.flatMap_cons ds c _, List.foldl_append, List.foldl_map]

theorem mem_gen_foldl (f : Dataset → List Str) :
    ∀ (c : List Dataset) (acc : List Str) (x : Str),
      x ∈ c.foldl (fun acc ds => (f ds).foldl setAdd acc) acc ↔
        x ∈ acc ∨ ∃ ds ∈ c, x ∈ f ds := by
  intro c
  induction c with
  | nil => simp
  | cons ds c ih =>
    intro acc x
    rw [List.foldl_cons, ih, mem_foldl_setAdd]
    simp only [List.mem_cons]
    constructor
    · rintro ((h | h) | ⟨d, hd, hx⟩)
      · exact Or.inl h
      · exact Or.inr ⟨ds, Or.inl rfl, h⟩
      · exact Or.inr ⟨d, Or.inr hd, hx⟩
    · rintro (h | ⟨d, (rfl | hd), hx⟩)
      · exact Or.inl (Or.inl h)
      · exact Or.inl (Or.inr hx)
      · exact Or.inr ⟨d, hd, hx⟩

theorem mem_sceneValues (c : List Dataset) (x : Str) :
    x ∈ (buildFilterGroups c).sceneValues ↔ ∃ ds ∈ c, x ∈ ds.scenes := by
  rw [buildFilterGroups, buildFilterGroups_scene,
    mem_gen_foldl (fun ds => ds.scenes) c emptyGroups.sceneValues x]
  simp [emptyGroups]

theorem mem_robot_foldl :
    ∀ (c : List Dataset) (acc : List Str) (x : Str),
      x ∈ c.foldl (fun acc ds =>
          if robotTruthy ds then (robots ds).foldl setAdd acc else acc) acc ↔
        x ∈ acc ∨ ∃ ds ∈ c, robotTruthy ds = true ∧ x ∈ robots ds := by
  intro c
  induction c with
  | nil => simp
  | cons ds c ih =>
    intro acc x
    rw [List.foldl_cons]
    by_cases htr : robotTruthy ds
    · rw [if_pos htr, ih, mem_foldl_setAdd]
      simp only [List.mem_cons]
      constructor
      · rintro ((h | h) | ⟨d, hd, hdt, hx⟩)
        · exact Or.inl h
        · exact Or.inr ⟨ds, Or.inl rfl, htr, h⟩
        · exact Or.inr ⟨d, Or.inr hd, hdt, hx⟩
      · rintro (h | ⟨d, (rfl | hd), hdt, hx⟩)
        · exact Or.inl (Or.inl h)
        · exact Or.inl (Or.inr hx)
        · exact Or.inr ⟨d, hd, hdt, hx⟩
    · rw [if_neg htr, ih]
      simp only [List.mem_cons]
      constructor
      · rintro (h | ⟨d, hd, hdt, hx⟩)
        · exact Or.inl h
        · exact Or.inr ⟨d, Or.inr hd, hdt, hx⟩
      · rintro (h | ⟨d, (rfl | hd), hdt, hx⟩)
        · exact Or.inl h
        · exact absurd hdt htr
        · exact Or.inr ⟨d, hd, hdt, hx⟩

theorem mem_robotValues (c : List Dataset) (x : Str) :
    x ∈ (buildFilterGroups c).robotValues ↔
      ∃ ds ∈ c, robotTruthy ds = true ∧ x ∈ robots ds := by
  rw [buildFilterGroups, buildFilterGroups_robot,
    mem_robot_foldl c emptyGroups.robotValues x]
  simp [emptyGroups]

theorem mem_actionValues (c : List Dataset) (x : Str) :
    x ∈ (buildFilterGroups c).actionValues ↔ ∃ ds ∈ c, x ∈ ds.actions := by
  rw [buildFilterGroups, buildFilterGroups_action,
    mem_gen_foldl (fun ds => ds.actions) c emptyGroups.actionValues x]
  simp [emptyGroups]

theorem mem_endStep (acc : List Str) (ds : Dataset) (x : Str) :
    (x ∈ match ds.endEffector with
      | some e => if e.isEmpty then acc else setAdd acc e
      | none => acc) ↔
      x ∈ acc ∨ (ds.endEffector = some x ∧ x ≠ []) := by
  cases h : ds.endEffector with
  | none => simp
  | some e =>
    show x ∈ (if e.isEmpty then acc else setAdd acc e) ↔ _
    by_cases he : e.isEmpty
    · rw [if_pos he]
      have : e = [] := List.isEmpty_iff.mp he
      subst this
      constructor
      · exact Or.inl
      · rintro (hx | ⟨hsome, hne⟩)
        · exact hx
        · rw [Option.some.injEq] at hsome
          exact absurd hsome.symm hne
    · rw [if_neg he]
      rw [mem_setAdd]
      constructor
      · rintro (hx | rfl)
        · exact Or.inl hx
        · exact Or.inr ⟨rfl, fun hc => he (by simp [hc])⟩
      · rintro (hx | ⟨hsome, _⟩)
        · exact Or.inl hx
        · rw [Option.some.injEq] at hsome
          exact Or.inr hsome.symm

theorem mem_endValues (c : List Dataset) (x : Str) :
    x ∈ (buildFilterGroups c).endValues ↔
      ∃ ds ∈ c, ds.endEffector = some x ∧ x ≠ [] := by
  rw [buildFilterGroups, buildFilterGroups_end]
  have hgen : ∀ (cc : List Dataset) (acc : List Str),
      (x ∈ cc.foldl (fun acc ds =>
          match ds.endEffector with
          | some e => if e.isEmpty then acc else setAdd acc e
          | none => acc) acc) ↔
        x ∈ acc ∨ ∃ ds ∈ cc, ds.endEffector = some x ∧ x ≠ [] := by
    intro cc
    induction cc with
    | nil => simp
    | cons ds cc ih =>
      intro acc
      rw [List.foldl_cons, ih, mem_endStep]
      simp only [List.mem_cons]
      constructor
      · rintro ((h | h) | ⟨d, hd, hx⟩)
        · exact Or.inl h
        · exact Or.inr ⟨ds, Or.inl rfl, h⟩
        · exact Or.inr ⟨d, Or.inr hd, hx⟩
      · rintro (h | ⟨d, (rfl | hd), hx⟩)
        · exact Or.inl (Or.inl h)
        · exact Or.inl (Or.inr hx)
        · exact Or.inr ⟨d, hd, hx⟩
  rw [hgen c emptyGroups.endValues]
  simp [emptyGroups]

theorem nodeAt_objectValues_isSome (c : List Dataset) (p : List Str) (hp : p ≠ []) :
    (nodeAt (buildFilterGroups c).objectValues p).isSome = true ↔
      ∃ ds ∈ c, ∃ o ∈ ds.objects, p <+: o.hierarchy := by
  have hobj : (buildFilterGroups c).objectValues = buildTree (objPaths c) := by
    rw [buildFilterGroups, buildFilterGroups_object]
    rfl
  rw [hobj, nodeAt_buildTree_isSome (objPaths c) p hp]
  unfold objPaths
  constructor
  · rintro ⟨q, hq, hpre⟩
    rw [List.mem_flatMap] at hq
    obtain ⟨ds, hds, hq2⟩ := hq
    rw [List.mem_map] at hq2
    obtain ⟨o, ho, rfl⟩ := hq2
    exact ⟨ds, hds, o, ho, hpre⟩
  · rintro ⟨ds, hds, o, ho, hpre⟩
    refine ⟨o.hierarchy, ?_, hpre⟩
    rw [List.mem_flatMap]
    exact ⟨ds, hds, List.mem_map_of_mem _ ho⟩


/-! ### Selection-set operations -/

/-- The selection ids that `selectAllInHierarchy` adds, in traversal order. -/
def hierLeafIds (key : Str) : HMap → List Str
  | [] => []
  | (value, HNode.mk isLf ch) :: rest =>
    (if isLf then [mkId key value] else []) ++
      (if ch.isEmpty then [] else hierLeafIds key ch) ++ hierLeafIds key rest

theorem selectAllInHierarchy_eq_foldl (key : Str) :
    ∀ (m : HMap) (sel : List Str),
      selectAllInHierarchy key sel m = (hierLeafIds key m).foldl setAdd sel
  | [], sel => by simp [selectAllInHierarchy, hierLeafIds]
  | (value, HNode.mk isLf ch) :: rest, sel => by
    have ih1 := fun s => selectAllInHierarchy_eq_foldl key ch s
    have ih2 := fun s => selectAllInHierarchy_eq_foldl key rest s
    by_cases hl : isLf <;> by_cases hch : ch.isEmpty <;>
      simp [selectAllInHierarchy, hierLeafIds, hl, hch, List.foldl_append, ih1, ih2]

theorem foldl_setAdd_idem (L : List Str) (sel : List Str) :
    L.foldl setAdd (L.foldl setAdd sel) = L.foldl setAdd sel := by
  apply foldl_setAdd_of_subset
  intro v hv
  rw [mem_foldl_setAdd]
  exact Or.inr hv

theorem selectAllFlat_eq_foldl (sel : List Str) (key : Str) (vs : List Str) :
    selectAllFlat sel key vs = (vs.map (mkId key)).foldl setAdd sel := by
  unfold selectAllFlat
  rw [List.foldl_map]

theorem selectAllInGroup_idem (sel : List Str) (key : Str) (g : Option GroupVals) :
    selectAllInGroup (selectAllInGroup sel key g) key g = selectAllInGroup sel key g := by
  cases g with
  | none => rfl
  | some gv =>
    cases gv with
    | flat vs =>
      show selectAllFlat (selectAllFlat sel key vs) key vs = selectAllFlat sel key vs
      rw [selectAllFlat_eq_foldl, selectAllFlat_eq_foldl]
      exact foldl_setAdd_idem _ _
    | hier m =>
      show selectAllInHierarchy key (selectAllInHierarchy key sel m) m =
        selectAllInHierarchy key sel m
      rw [selectAllInHierarchy_eq_foldl, selectAllInHierarchy_eq_foldl]
      exact foldl_setAdd_idem _ _

theorem mem_toggle_toggle (sel : List Str) (k v : Str) (x : Str) :
    x ∈ toggleFilterSelection (toggleFilterSelection sel k v) k v ↔ x ∈ sel := by
  unfold toggleFilterSelection
  by_cases h : mkId k v ∈ sel
  · rw [if_pos ((includes_iff sel (mkId k v)).mpr h)]
    have h2 : mkId k v ∉ sel.filter (fun y => decide (y ≠ mkId k v)) := by simp
    rw [if_neg (fun hc => h2 ((includes_iff _ _).mp hc))]
    rw [List.mem_append, List.mem_filter]
    constructor
    · rintro (⟨hx, _⟩ | hx)
      · exact hx
      · rw [List.mem_singleton] at hx
        exact hx ▸ h
    · intro hx
      by_cases hxe : x = mkId k v
      · exact Or.inr (by simp [hxe])
      · exact Or.inl ⟨hx, by simpa using hxe⟩
  · rw [if_neg (fun hc => h ((includes_iff _ _).mp hc))]
    have h2 : mkId k v ∈ sel ++ [mkId k v] :=
      List.mem_append_right _ (List.mem_singleton_self _)
    rw [if_pos ((includes_iff _ _).mpr h2)]
    rw [List.filter_append]
    have hfe : ([mkId k v] : List Str).filter (fun y => decide (y ≠ mkId k v)) = [] := by
      simp
    rw [hfe, List.append_nil, List.mem_filter]
    constructor
    · rintro ⟨hx, _⟩
      exact hx
    · intro hx
      refine ⟨hx, ?_⟩
      simp only [decide_eq_true_eq]
      intro hxe
      exact h (hxe ▸ hx)


/-! ### Filter Finder navigation -/

def prevDir : Str := "prev".toList

theorem navigate_empty (st : FinderState) (d : Str) (h : st.matchList = []) :
    navigateFilterMatch st d = st := by
  unfold navigateFilterMatch
  rw [if_pos (by simp [h])]

theorem navigate_next_step (st : FinderState) (h0 : 0 < st.matchList.length) :
    navigateFilterMatch st nextDir =
      FinderState.mk st.matchList
        (Int.tmod (st.currentIndex + 1) (st.matchList.length : Int)) := by
  unfold navigateFilterMatch
  rw [if_neg (by omega), if_pos rfl]

theorem navigate_prev_step (st : FinderState) (h0 : 0 < st.matchList.length) :
    navigateFilterMatch st prevDir =
      FinderState.mk st.matchList
        (Int.tmod (st.currentIndex - 1 + (st.matchList.length : Int))
          (st.matchList.length : Int)) := by
  unfold navigateFilterMatch
  rw [if_neg (by omega), if_neg (by decide : ¬ prevDir = nextDir)]

theorem iterate_next (st : FinderState) (h0 : 0 < st.matchList.length)
    (hge : 0 ≤ st.currentIndex) (hlt : st.currentIndex < (st.matchList.length : Int)) :
    ∀ k : Nat, (fun s => navigateFilterMatch s nextDir)^[k] st =
      FinderState.mk st.matchList
        ((st.currentIndex + k) % (st.matchList.length : Int)) := by
  have hn : (0 : Int) < (st.matchList.length : Int) := by exact_mod_cast h0
  intro k
  induction k with
  | zero =>
    simp only [Function.iterate_zero, id_eq, Nat.cast_zero, Int.add_zero]
    rw [Int.emod_eq_of_lt hge hlt]
  | succ k ih =>
    rw [Function.iterate_succ_apply', ih]
    have hstep := navigate_next_step
      (FinderState.mk st.matchList
        ((st.currentIndex + k) % (st.matchList.length : Int)))
      (by simpa using h0)
    rw [hstep]
    dsimp only
    congr 1
    have hmge : 0 ≤ (st.currentIndex + k) % (st.matchList.length : Int) :=
      Int.emod_nonneg _ (by omega)
    rw [Int.tmod_eq_emod (by omega) (by omega)]
    rw [Int.emod_add_emod]
    congr 1
    push_cast
    ring

theorem iterate_prev (st : FinderState) (h0 : 0 < st.matchList.length)
    (hge : 0 ≤ st.currentIndex) (hlt : st.currentIndex < (st.matchList.length : Int)) :
    ∀ k : Nat, (fun s => navigateFilterMatch s prevDir)^[k] st =
      FinderState.mk st.matchList
        ((st.currentIndex - k) % (st.matchList.length : Int)) := by
  have hn : (0 : Int) < (st.matchList.length : Int) := by exact_mod_cast h0
  intro k
  induction k with
  | zero =>
    simp only [Function.iterate_zero, id_eq, Nat.cast_zero, Int.sub_zero]
    rw [Int.emod_eq_of_lt hge hlt]
  | succ k ih =>
    rw [Function.iterate_succ_apply', ih]
    have hstep := navigate_prev_step
      (FinderState.mk st.matchList
        ((st.currentIndex - k) % (st.matchList.length : Int)))
      (by simpa using h0)
    rw [hstep]
    dsimp only
    congr 1
    have hmge : 0 ≤ (st.currentIndex - k) % (st.matchList.length : Int) :=
      Int.emod_nonneg _ (by omega)
    rw [Int.tmod_eq_emod (by omega) (by omega)]
    have harr : (st.currentIndex - (k : Int)) % (st.matchList.length : Int) - 1 +
        (st.matchList.length : Int) =
        (st.currentIndex - (k : Int)) % (st.matchList.length : Int) +
          ((st.matchList.length : Int) - 1) := by ring
    rw [harr, Int.emod_add_emod]
    have harr2 : st.currentIndex - (k : Int) + ((st.matchList.length : Int) - 1) =
        st.currentIndex - ((k : Int) + 1) + (st.matchList.length : Int) * 1 := by ring
    rw [harr2, Int.add_mul_emod_self_left]
    norm_cast

theorem navigate_next_cycle (st : FinderState) (h0 : 0 < st.matchList.length)
    (hge : 0 ≤ st.currentIndex) (hlt : st.currentIndex < (st.matchList.length : Int)) :
    (fun s => navigateFilterMatch s nextDir)^[st.matchList.length] st = st := by
  rw [iterate_next st h0 hge hlt st.matchList.length]
  have harr : st.currentIndex + (st.matchList.length : Int) =
      st.currentIndex + (st.matchList.length : Int) * 1 := by ring
  rw [harr, Int.add_mul_emod_self_left, Int.emod_eq_of_lt hge hlt]

theorem navigate_prev_cycle (st : FinderState) (h0 : 0 < st.matchList.length)
    (hge : 0 ≤ st.currentIndex) (hlt : st.currentIndex < (st.matchList.length : Int)) :
    (fun s => navigateFilterMatch s prevDir)^[st.matchList.length] st = st := by
  rw [iterate_prev st h0 hge hlt st.matchList.length]
  have harr : st.currentIndex - (st.matchList.length : Int) =
      st.currentIndex + (st.matchList.length : Int) * (-1) := by ring
  rw [harr, Int.add_mul_emod_self_left, Int.emod_eq_of_lt hge hlt]


/-! ### Debounce scheduler -/

/-- Timer-id sanity: every id ever handed out is below the fresh-id counter. -/
def TimerWF (s : SchedState) : Prop :=
  (∀ tid, s.pendingFilterUpdate = some tid → tid < s.nextTimerId) ∧
  (∀ tid ∈ s.cancelledTimers, tid < s.nextTimerId)

/-- Lower bound on every id that can still occupy the pending slot. -/
def PendingLower (n0 : Nat) (s : SchedState) : Prop :=
  (∀ tid, s.pendingFilterUpdate = some tid → n0 ≤ tid) ∧ n0 ≤ s.nextTimerId

theorem scheduleFilterUpdate_fields (s : SchedState) :
    (scheduleFilterUpdate s).pendingFilterUpdate = some s.nextTimerId ∧
    (scheduleFilterUpdate s).nextTimerId = s.nextTimerId + 1 ∧
    (scheduleFilterUpdate s).selectedFilters = s.selectedFilters := by
  unfold scheduleFilterUpdate clearPending
  cases h : s.pendingFilterUpdate <;> simp [h]

theorem schedule_preserves_lower (n0 : Nat) (s : SchedState)
    (h : PendingLower n0 s) : PendingLower n0 (scheduleFilterUpdate s) := by
  obtain ⟨_, h2⟩ := h
  obtain ⟨hpend, hnext, _⟩ := scheduleFilterUpdate_fields s
  constructor
  · intro tid ht
    rw [hpend, Option.some.injEq] at ht
    omega
  · omega

theorem clearPending_fields (s : SchedState) :
    (clearPending s).pendingFilterUpdate = none ∧
    (clearPending s).nextTimerId = s.nextTimerId := by
  unfold clearPending
  cases h : s.pendingFilterUpdate <;> simp [h]

theorem fireTimer_fields (s : SchedState) :
    (fireTimer s).pendingFilterUpdate = none ∧
    (fireTimer s).nextTimerId = s.nextTimerId := by
  unfold fireTimer
  cases h : s.pendingFilterUpdate with
  | none => exact ⟨h, rfl⟩
  | some tid => simp [h]

theorem resetFilters_eq (s : SchedState) :
    resetFilters s = scheduleFilterUpdate
      { clearPending s with selectedFilters := [] } := rfl

theorem step_preserves_lower (n0 : Nat) (s s2 : SchedState) (hst : Step s s2)
    (h : PendingLower n0 s) : PendingLower n0 s2 := by
  cases hst with
  | toggle k v s =>
    exact schedule_preserves_lower n0 _ ⟨fun tid ht => h.1 tid ht, h.2⟩
  | reset s =>
    rw [resetFilters_eq]
    apply schedule_preserves_lower n0
    obtain ⟨hcp, hcn⟩ := clearPending_fields s
    constructor
    · intro tid ht
      have ht2 : (clearPending s).pendingFilterUpdate = some tid := ht
      rw [hcp] at ht2
      cases ht2
    · have he : ({ clearPending s with selectedFilters := ([] : List Str) }
          : SchedState).nextTimerId = (clearPending s).nextTimerId := rfl
      rw [he, hcn]
      exact h.2
  | fire s =>
    obtain ⟨hfp, hfn⟩ := fireTimer_fields s
    constructor
    · intro tid ht
      rw [hfp] at ht
      cases ht
    · rw [hfn]
      exact h.2
  | schedule s => exact schedule_preserves_lower n0 s h

theorem reach_preserves_lower (n0 : Nat) (s t : SchedState) (h : Reach s t)
    (hs : PendingLower n0 s) : PendingLower n0 t := by
  induction h with
  | refl => exact hs
  | tail h1 hstep ih => exact step_preserves_lower n0 _ _ hstep ih

theorem resetFilters_cancels (s : SchedState) (tid : Nat)
    (h : s.pendingFilterUpdate = some tid) :
    tid ∈ (resetFilters s).cancelledTimers := by
  simp [resetFilters, scheduleFilterUpdate, clearPending, h]

theorem resetFilters_state (s : SchedState) :
    (resetFilters s).pendingFilterUpdate = some s.nextTimerId ∧
    (resetFilters s).nextTimerId = s.nextTimerId + 1 ∧
    (resetFilters s).selectedFilters = [] := by
  unfold resetFilters scheduleFilterUpdate clearPending
  cases h : s.pendingFilterUpdate <;> simp [h]

theorem resetFilters_fresh_not_cancelled (s : SchedState) (hwf : TimerWF s) :
    s.nextTimerId ∉ (resetFilters s).cancelledTimers := by
  unfold resetFilters scheduleFilterUpdate clearPending
  cases h : s.pendingFilterUpdate with
  | none =>
    simp only [h]
    intro hmem
    exact absurd (hwf.2 _ hmem) (lt_irrefl _)
  | some tid0 =>
    simp only [h]
    intro hmem
    rcases List.mem_cons.mp hmem with h1 | h1
    · exact absurd (h1 ▸ hwf.1 tid0 h) (lt_irrefl _)
    · exact absurd (hwf.2 _ h1) (lt_irrefl _)


/-! ### findHierarchyNode -/

theorem findLoop_cons_some (parts : List Str) (m : HMap) (part : Str)
    (rest : List Str) (n : HNode) (h : lookupNode m part = some n) :
    findLoop parts m (part :: rest) =
      if idxOfStr parts part = parts.length - 1 then some n
      else findLoop parts n.children rest := by
  simp [findLoop, h]

theorem findLoop_cons_none (parts : List Str) (m : HMap) (part : Str)
    (rest : List Str) (h : lookupNode m part = none) :
    findLoop parts m (part :: rest) = none := by
  simp [findLoop, h]

theorem idxOfStr_append_not_mem (part : Str) :
    ∀ pre : List Str, part ∉ pre → idxOfStr (pre ++ [part]) part = pre.length := by
  intro pre
  induction pre with
  | nil => intro _; simp [idxOfStr]
  | cons x xs ih =>
    intro h
    have hx : ¬ x = part := fun hc => h (hc ▸ List.mem_cons_self x xs)
    simp only [List.cons_append, idxOfStr, if_neg hx, List.append_eq]
    rw [ih (fun hc => h (List.mem_cons_of_mem x hc))]
    rfl

theorem idxOfStr_le_position (part : Str) :
    ∀ (pre suf : List Str), idxOfStr (pre ++ part :: suf) part ≤ pre.length := by
  intro pre
  induction pre with
  | nil => intro suf; simp [idxOfStr]
  | cons x xs ih =>
    intro suf
    by_cases hx : x = part
    · simp [idxOfStr, hx]
    · simp only [List.cons_append, idxOfStr, if_neg hx, List.append_eq]
      have h1 := ih suf
      have h2 : (x :: xs).length = xs.length + 1 := List.length_cons x xs
      omega

theorem findLoop_eq (parts : List Str) (lst : Str)
    (hl : parts.getLast? = some lst) (hnd : lst ∉ parts.dropLast) :
    ∀ (suf pre : List Str) (m : HMap), parts = pre ++ suf →
      findLoop parts m suf = nodeAt m suf := by
  intro suf
  induction suf with
  | nil => intro pre m _; rfl
  | cons part rest ih =>
    intro pre m hsplit
    cases hlook : lookupNode m part with
    | none => rw [findLoop_cons_none _ _ _ _ hlook, nodeAt_cons_none _ _ _ hlook]
    | some n =>
      rw [findLoop_cons_some _ _ _ _ _ hlook, nodeAt_cons_some _ _ _ _ hlook]
      by_cases hrest : rest = []
      · subst hrest
        have hparts : parts = pre ++ [part] := hsplit
        have hlst : lst = part := by
          rw [hparts, List.getLast?_concat] at hl
          exact (Option.some.injEq _ _ ▸ hl).symm
        have hnotpre : part ∉ pre := by
          rw [hparts, List.dropLast_concat] at hnd
          exact hlst ▸ hnd
        have hidx : idxOfStr parts part = parts.length - 1 := by
          rw [hparts, idxOfStr_append_not_mem part pre hnotpre]
          simp
        rw [if_pos hidx, if_pos rfl]
      · have hle : idxOfStr parts part ≤ pre.length := by
          rw [hsplit]
          exact idxOfStr_le_position part pre rest
        have hlen : parts.length = pre.length + 1 + rest.length := by
          rw [hsplit]
          simp [List.length_append]
          omega
        have hrpos : 0 < rest.length := List.length_pos.mpr hrest
        have hne2 : ¬ idxOfStr parts part = parts.length - 1 := by omega
        rw [if_neg hne2, if_neg hrest]
        exact ih (pre ++ [part]) n.children (by rw [hsplit]; simp)

/-- Where the last path segment does not repeat an earlier segment,
`findHierarchyNode` is exactly descent through the split path. -/
theorem findHierarchyNode_eq (m : HMap) (path : Str) (lst : Str)
    (hl : (splitOnChar '>' path).getLast? = some lst)
    (hnd : lst ∉ (splitOnChar '>' path).dropLast) :
    findHierarchyNode m path = nodeAt m (splitOnChar '>' path) := by
  unfold findHierarchyNode
  exact findLoop_eq (splitOnChar '>' path) lst hl hnd (splitOnChar '>' path) [] m
    (by simp)


/-! ### Claim theorems -/

/-- Claim C1 (amended): for every catalog, selection of (facet, value) pairs
whose facets are among the five facet keys and whose values contain no `:`,
and every query, `applyFilters` returns exactly the records, in original
catalog order, that pass the query check and, for every facet with at least
one selected value, match at least one selected value of that facet
(scene/action membership, robot scalar-as-singleton membership, end-effector
equality, object hierarchy membership at any depth). The no-`:` proviso is
forced: a selected value containing `:` is truncated at its first `:` by the
id parse in `applyFilters` (see C10). -/
theorem C1_filter_evaluator (c : List Dataset) (sel : List (Str × Str)) (q : Str)
    (hkeys : ∀ p ∈ sel, p.1 ∈ facetKeys) (hcolon : ∀ p ∈ sel, ':' ∉ p.2) :
    applyFilters c (encodeSel sel) q = c.filter (specPasses sel q) :=
  applyFilters_eq_spec_filter c sel q hkeys hcolon

/-- Witness for C1 at a concrete catalog, selection and query. -/
theorem C1_witness :
    (∀ p ∈ [(sceneKey, "kitchen".toList)], p.1 ∈ facetKeys ∧ ':' ∉ p.2) ∧
      applyFilters
        [⟨"p1".toList, "alpha".toList, ["kitchen".toList], RobotField.list [],
          none, [], []⟩,
          ⟨"p2".toList, "beta".toList, ["office".toList], RobotField.list [],
            none, [], []⟩]
        (encodeSel [(sceneKey, "kitchen".toList)]) [] =
      List.filter (specPasses [(sceneKey, "kitchen".toList)] [])
        [⟨"p1".toList, "alpha".toList, ["kitchen".toList], RobotField.list [],
          none, [], []⟩,
          ⟨"p2".toList, "beta".toList, ["office".toList], RobotField.list [],
            none, [], []⟩] :=
  ⟨by decide,
    C1_filter_evaluator _ [(sceneKey, "kitchen".toList)] []
      (by decide) (by decide)⟩

/-- Counterexample to C1 as frozen: with the selection pair
(object, "a:b"), the code truncates the stored id at the first `:` and
filters on "a", so a record whose hierarchy contains "a" but not "a:b" is
returned although the claimed predicate rejects it. -/
theorem C1_counterexample :
    applyFilters
        [⟨"p1".toList, "alpha".toList, [], RobotField.list [], none, [],
          [⟨"cup".toList, [['a']]⟩]⟩]
        (encodeSel [(objectKey, "a:b".toList)]) [] ≠
      List.filter (specPasses [(objectKey, "a:b".toList)] [])
        [⟨"p1".toList, "alpha".toList, [], RobotField.list [], none, [],
          [⟨"cup".toList, [['a']]⟩]⟩] := by
  decide

/-- Claim C2 (amended): for every facet key among the five and every value
containing no `:`, `calculateAffectedCount(f, v)` equals the length of
`applyFilters` with empty query under the single selection entry `(f, v)`
(the count reads neither the query nor the current selection). The no-`:`
proviso is forced by the same id-parse truncation as C10. -/
theorem C2_count_invariant (c : List Dataset) (f v : Str)
    (hf : f ∈ facetKeys) (hv : ':' ∉ v) :
    calculateAffectedCount c f v = (applyFilters c [mkId f v] []).length :=
  calculateAffectedCount_eq_applyFilters c f v (facetKeys_no_colon f hf) hv

/-- Witness for C2 at a concrete catalog and facet value. -/
theorem C2_witness :
    (sceneKey ∈ facetKeys ∧ ':' ∉ "kitchen".toList) ∧
      calculateAffectedCount
        [⟨"p1".toList, "alpha".toList, ["kitchen".toList], RobotField.list [],
          none, [], []⟩]
        sceneKey "kitchen".toList =
      (applyFilters
        [⟨"p1".toList, "alpha".toList, ["kitchen".toList], RobotField.list [],
          none, [], []⟩]
        [mkId sceneKey "kitchen".toList] []).length :=
  ⟨by decide, C2_count_invariant _ sceneKey "kitchen".toList (by decide) (by decide)⟩

/-- Counterexample to C2 as frozen: for the value "a:b" (facet scene), the
static count is 0 but the single-entry filter evaluation keeps the record,
because the stored id is parsed back as the value "a". -/
theorem C2_counterexample :
    calculateAffectedCount
        [⟨"p1".toList, "alpha".toList, [['a']], RobotField.list [], none, [], []⟩]
        sceneKey "a:b".toList ≠
      (applyFilters
        [⟨"p1".toList, "alpha".toList, [['a']], RobotField.list [], none, [], []⟩]
        [mkId sceneKey "a:b".toList] []).length := by
  decide

/-- Claim C3 (amended): after any sequence of insertions into an initially
empty hierarchy, the node at path `p` exists iff some inserted path extends
`p`, and its `isLeaf` flag is true iff the FIRST inserted path reaching the
node ended exactly at it. In particular, inserting a shorter path whose end
coincides with an existing interior node leaves that node's `isLeaf` false
(`addToHierarchy` sets `isLeaf` only at node creation and never updates it). -/
theorem C3_isLeaf_invariant (ps : List (List Str)) (p : List Str) (hp : p ≠ []) :
    (nodeAt (buildTree ps) p).map HNode.isLeaf =
      (firstReach ps p).map (fun q => decide (q = p)) :=
  nodeAt_buildTree_isLeaf ps p hp

/-- Witness for C3 at a concrete insertion sequence. -/
theorem C3_witness :
    ([['a']] : List Str) ≠ [] ∧
      (nodeAt (buildTree [[['a']], [['a'], ['b']]]) [['a']]).map HNode.isLeaf =
        (firstReach [[['a']], [['a'], ['b']]] [['a']]).map
          (fun q => decide (q = [['a']])) :=
  ⟨by decide, C3_isLeaf_invariant [[['a']], [['a'], ['b']]] [['a']] (by decide)⟩

/-- Counterexample to C3 as frozen: inserting ["a","b"] and then the shorter
path ["a"] leaves the node "a" with `isLeaf = false`, although "a" was the
terminal label of an inserted path; the claimed iff fails. -/
theorem C3_counterexample :
    (nodeAt (buildTree [[['a'], ['b']], [['a']]]) [['a']]).map HNode.isLeaf =
        some false ∧
      [['a']] ∈ [[['a'], ['b']], [['a']]] := by
  decide


/-- Sample record whose single object path is ["a"]. -/
def wd1 : Dataset :=
  ⟨"p1".toList, "n1".toList, ["kitchen".toList],
    RobotField.scalar "armX".toList, some "grip".toList, ["pick".toList],
    [⟨"cup".toList, [['a']]⟩]⟩

/-- Sample record whose single object path is ["a", "b"]. -/
def wd2 : Dataset :=
  ⟨"p2".toList, "n2".toList, ["office".toList],
    RobotField.list ["armY".toList], none, [],
    [⟨"pot".toList, [['a'], ['b']]⟩]⟩

/-- Claim C4 (amended): `buildFilterGroups` is order-insensitive in the flat
facet value sets (as sets: same membership) and in the hierarchical facet's
node structure (the same paths exist); the `isLeaf` flags are NOT part of
the order-insensitive contents, since they depend on which record created a
node first when one object path is a proper prefix of another. -/
theorem C4_order_insensitive (c c2 : List Dataset) (hperm : c.Perm c2) :
    (∀ x, x ∈ (buildFilterGroups c).sceneValues ↔
        x ∈ (buildFilterGroups c2).sceneValues) ∧
      (∀ x, x ∈ (buildFilterGroups c).robotValues ↔
        x ∈ (buildFilterGroups c2).robotValues) ∧
      (∀ x, x ∈ (buildFilterGroups c).endValues ↔
        x ∈ (buildFilterGroups c2).endValues) ∧
      (∀ x, x ∈ (buildFilterGroups c).actionValues ↔
        x ∈ (buildFilterGroups c2).actionValues) ∧
      (∀ p, (nodeAt (buildFilterGroups c).objectValues p).isSome =
        (nodeAt (buildFilterGroups c2).objectValues p).isSome) := by
  refine ⟨?_, ?_, ?_, ?_, ?_⟩
  · intro x
    rw [mem_sceneValues, mem_sceneValues]
    constructor
    · rintro ⟨ds, hds, hx⟩
      exact ⟨ds, hperm.mem_iff.mp hds, hx⟩
    · rintro ⟨ds, hds, hx⟩
      exact ⟨ds, hperm.mem_iff.mpr hds, hx⟩
  · intro x
    rw [mem_robotValues, mem_robotValues]
    constructor
    · rintro ⟨ds, hds, htr, hx⟩
      exact ⟨ds, hperm.mem_iff.mp hds, htr, hx⟩
    · rintro ⟨ds, hds, htr, hx⟩
      exact ⟨ds, hperm.mem_iff.mpr hds, htr, hx⟩
  · intro x
    rw [mem_endValues, mem_endValues]
    constructor
    · rintro ⟨ds, hds, hx⟩
      exact ⟨ds, hperm.mem_iff.mp hds, hx⟩
    · rintro ⟨ds, hds, hx⟩
      exact ⟨ds, hperm.mem_iff.mpr hds, hx⟩
  · intro x
    rw [mem_actionValues, mem_actionValues]
    constructor
    · rintro ⟨ds, hds, hx⟩
      exact ⟨ds, hperm.mem_iff.mp hds, hx⟩
    · rintro ⟨ds, hds, hx⟩
      exact ⟨ds, hperm.mem_iff.mpr hds, hx⟩
  · intro p
    by_cases hp : p = []
    · subst hp
      rfl
    · apply bool_eq_of_iff
      rw [nodeAt_objectValues_isSome c p hp, nodeAt_objectValues_isSome c2 p hp]
      constructor
      · rintro ⟨ds, hds, o, ho, hpre⟩
        exact ⟨ds, hperm.mem_iff.mp hds, o, ho, hpre⟩
      · rintro ⟨ds, hds, o, ho, hpre⟩
        exact ⟨ds, hperm.mem_iff.mpr hds, o, ho, hpre⟩

/-- Witness for C4 at a concrete two-record permutation. -/
theorem C4_witness :
    ([wd1, wd2] : List Dataset).Perm [wd2, wd1] ∧
      ((∀ x, x ∈ (buildFilterGroups [wd1, wd2]).sceneValues ↔
          x ∈ (buildFilterGroups [wd2, wd1]).sceneValues) ∧
        (∀ x, x ∈ (buildFilterGroups [wd1, wd2]).robotValues ↔
          x ∈ (buildFilterGroups [wd2, wd1]).robotValues) ∧
        (∀ x, x ∈ (buildFilterGroups [wd1, wd2]).endValues ↔
          x ∈ (buildFilterGroups [wd2, wd1]).endValues) ∧
        (∀ x, x ∈ (buildFilterGroups [wd1, wd2]).actionValues ↔
          x ∈ (buildFilterGroups [wd2, wd1]).actionValues) ∧
        (∀ p, (nodeAt (buildFilterGroups [wd1, wd2]).objectValues p).isSome =
          (nodeAt (buildFilterGroups [wd2, wd1]).objectValues p).isSome)) :=
  ⟨List.Perm.swap wd2 wd1 [],
    C4_order_insensitive [wd1, wd2] [wd2, wd1] (List.Perm.swap wd2 wd1 [])⟩

/-- Counterexample to C4 as frozen: permuting the two records flips the
`isLeaf` flag of the shared node "a", so the hierarchical facet contents
including `isLeaf` are not order-insensitive. -/
theorem C4_counterexample :
    (nodeAt (buildFilterGroups [wd1, wd2]).objectValues [['a']]).map HNode.isLeaf =
        some true ∧
      (nodeAt (buildFilterGroups [wd2, wd1]).objectValues [['a']]).map HNode.isLeaf =
        some false := by
  decide

/-- Claim C5 (amended): for every sequence of non-empty inserted paths in
which no path is a proper prefix of another, `countHierarchyItems` of the
resulting tree equals the number of distinct inserted paths, regardless of
order and duplicates. The no-proper-prefix proviso is forced: a path that
is extended by another inserted path ends at a node with children, which
`countHierarchyItems` does not count. -/
theorem C5_leaf_count (ps : List (List Str)) (hne : ∀ p ∈ ps, p ≠ [])
    (hpp : ∀ p ∈ ps, ∀ q ∈ ps, p <+: q → p = q) :
    countLeaves (buildTree ps) = ps.toFinset.card :=
  countLeaves_buildTree ps hne hpp

/-- Witness for C5 at the specification's tool/hammer/saw scenario. -/
theorem C5_witness :
    ((∀ p ∈ [[['t'], ['h']], [['t'], ['s']]], p ≠ ([] : List Str)) ∧
        (∀ p ∈ [[['t'], ['h']], [['t'], ['s']]],
          ∀ q ∈ [[['t'], ['h']], [['t'], ['s']]], p <+: q → p = q)) ∧
      countLeaves (buildTree [[['t'], ['h']], [['t'], ['s']]]) =
        ([[['t'], ['h']], [['t'], ['s']]] : List (List Str)).toFinset.card :=
  ⟨⟨by decide, by decide⟩,
    C5_leaf_count [[['t'], ['h']], [['t'], ['s']]] (by decide) (by decide)⟩

/-- Counterexample to C5 as frozen: inserting the two distinct non-empty
paths ["a"] and ["a","b"] yields one childless node, not two. -/
theorem C5_counterexample :
    (∀ p ∈ [[['a']], [['a'], ['b']]], p ≠ ([] : List Str)) ∧
      countLeaves (buildTree [[['a']], [['a'], ['b']]]) = 1 ∧
      ([[['a']], [['a'], ['b']]] : List (List Str)).toFinset.card = 2 := by
  refine ⟨by decide, ?_, by decide⟩
  simp [buildTree, countLeaves, insertPath, lookupNode, setFirst, HNode.children,
    HNode.isLeaf]

/-- Claim C6 (code bug): `findHierarchyNode` is supposed to return the node
reached by descending through the path's labels whenever every label on the
descent exists, including repeated labels. The loop instead tests
`parts.indexOf(part) === parts.length - 1`, the FIRST index of the label,
so for the existing path "a>b>a" — whose final label repeats an earlier
one — it walks past the target and returns null although the node exists. -/
theorem C6_findNode_bug :
    (findHierarchyNode (buildTree [[['a'], ['b'], ['a']]])
        ('a' :: '>' :: 'b' :: '>' :: ['a'])).isSome = false ∧
      (nodeAt (buildTree [[['a'], ['b'], ['a']]]) [['a'], ['b'], ['a']]).isSome =
        true := by
  decide


/-- Claim C7: toggling the same (facet, value) twice restores the selection
set (as a set: same membership — a re-added id moves to the end of insertion
order), and select-all on any group is idempotent. -/
theorem C7_idempotence (sel : List Str) (f v : Str) (g : Str)
    (gv : Option GroupVals) :
    (∀ x, x ∈ toggleFilterSelection (toggleFilterSelection sel f v) f v ↔ x ∈ sel) ∧
      selectAllInGroup (selectAllInGroup sel g gv) g gv = selectAllInGroup sel g gv :=
  ⟨fun x => mem_toggle_toggle sel f v x, selectAllInGroup_idem sel g gv⟩

/-- Claim C8: with a non-empty match list of length n and the navigation
state invariant (current index in range), n applications of next — and of
prev — return the state to its original value; with an empty match list
navigation is a no-op for every direction (and in particular never throws). -/
theorem C8_navigation (st : FinderState) :
    (0 < st.matchList.length → 0 ≤ st.currentIndex →
        st.currentIndex < (st.matchList.length : Int) →
        (fun s => navigateFilterMatch s nextDir)^[st.matchList.length] st = st ∧
          (fun s => navigateFilterMatch s prevDir)^[st.matchList.length] st = st) ∧
      (st.matchList = [] → ∀ d, navigateFilterMatch st d = st) :=
  ⟨fun h0 hge hlt =>
      ⟨navigate_next_cycle st h0 hge hlt, navigate_prev_cycle st h0 hge hlt⟩,
    fun h d => navigate_empty st d h⟩

/-- Witness for C8 at a one-match state and at the empty no-match state. -/
theorem C8_witness :
    ((fun s => navigateFilterMatch s nextDir)^[1] (FinderState.mk [['m']] 0) =
        FinderState.mk [['m']] 0 ∧
      (fun s => navigateFilterMatch s prevDir)^[1] (FinderState.mk [['m']] 0) =
        FinderState.mk [['m']] 0) ∧
      navigateFilterMatch (FinderState.mk [] (-1)) nextDir =
        FinderState.mk [] (-1) :=
  ⟨(C8_navigation (FinderState.mk [['m']] 0)).1 (by decide) (by decide) (by decide),
    (C8_navigation (FinderState.mk [] (-1))).2 rfl nextDir⟩

/-- Claim C9: `resetFilters` cancels any pending scheduled recomputation,
empties the selection set, and schedules exactly one fresh recomputation;
along every sequence of further events, only timers at least as fresh as
the one created by the reset can ever occupy the pending slot, so no
recomputation scheduled before the reset can ever fire. -/
theorem C9_reset_cancellation (s : SchedState) (hwf : TimerWF s) :
    (∀ tid, s.pendingFilterUpdate = some tid →
        tid ∈ (resetFilters s).cancelledTimers) ∧
      (resetFilters s).selectedFilters = [] ∧
      (resetFilters s).pendingFilterUpdate = some s.nextTimerId ∧
      s.nextTimerId ∉ (resetFilters s).cancelledTimers ∧
      (∀ t, Reach (resetFilters s) t → ∀ tid,
        t.pendingFilterUpdate = some tid → s.nextTimerId ≤ tid) := by
  obtain ⟨hpend, hnext, hsel⟩ := resetFilters_state s
  refine ⟨fun tid ht => resetFilters_cancels s tid ht, hsel, hpend,
    resetFilters_fresh_not_cancelled s hwf, ?_⟩
  intro t hreach tid ht
  have hlow : PendingLower s.nextTimerId (resetFilters s) := by
    constructor
    · intro tid2 ht2
      rw [hpend, Option.some.injEq] at ht2
      omega
    · omega
  exact (reach_preserves_lower s.nextTimerId (resetFilters s) t hreach hlow).1 tid ht

/-- Witness for C9 at the initial state. -/
theorem C9_witness :
    (resetFilters (SchedState.mk [] none 0 [])).selectedFilters = [] ∧
      (resetFilters (SchedState.mk [] none 0 [])).pendingFilterUpdate = some 0 ∧
      (0 : Nat) ∉ (resetFilters (SchedState.mk [] none 0 [])).cancelledTimers ∧
      (0 : Nat) ≤ 0 :=
  have h := C9_reset_cancellation (SchedState.mk [] none 0 [])
    ⟨fun _ ht => Option.noConfusion ht, fun tid ht => absurd ht (List.not_mem_nil tid)⟩
  ⟨h.2.1, h.2.2.1, h.2.2.2.1,
    h.2.2.2.2 (resetFilters (SchedState.mk [] none 0 []))
      Relation.ReflTransGen.refl 0 h.2.2.1⟩

theorem colon_not_mem_takeWhile (v : Str) :
    ':' ∉ v.takeWhile (fun x => decide (x ≠ ':')) := by
  induction v with
  | nil => simp
  | cons x xs ih =>
    rw [List.takeWhile_cons]
    by_cases hx : x = ':'
    · simp [hx]
    · rw [if_pos (by simp [hx])]
      intro h
      rcases List.mem_cons.mp h with h1 | h1
      · exact hx h1.symm
      · exact ih h1

theorem parseId_mkId_colon (f v : Str) (hf : ':' ∉ f) (hv : ':' ∈ v) :
    parseId (mkId f v) = (f, some (v.takeWhile (fun x => decide (x ≠ ':')))) := by
  obtain ⟨v2, hdec, hnot⟩ := takeWhile_decomp ':' v hv
  have h1 : mkId f v =
      f ++ ':' :: (v.takeWhile (fun x => decide (x ≠ ':')) ++ ':' :: v2) := by
    rw [mkId]
    exact congrArg (fun t => f ++ ':' :: t) hdec
  have h2 : splitOnChar ':' (mkId f v) =
      f :: (v.takeWhile (fun x => decide (x ≠ ':')) :: splitOnChar ':' v2) := by
    rw [h1, splitOnChar_append ':' f _ hf, splitOnChar_append ':' _ v2 hnot]
  simp [parseId, h2]

theorem collectFilters_single_colon (f v : Str) (hf : ':' ∉ f) (hv : ':' ∈ v) :
    collectFilters [mkId f v] =
      [(f, [some (v.takeWhile (fun x => decide (x ≠ ':')))])] := by
  simp [collectFilters, addEntry, lookupVs, parseId_mkId_colon f v hf hv]

/-- Claim C10: for a value containing `:` (facet key colon-free, as the five
real keys are), toggling adds the id "f:v", but `applyFilters` splits the
stored id on `:` and keeps only the portion of v before its first `:` as
the filter value, so filtering behaves exactly as if that proper prefix had
been selected instead of v. -/
theorem C10_colon_truncation (f v : Str) (hf : ':' ∉ f) (hv : ':' ∈ v) :
    (∀ sel : List Str, mkId f v ∉ sel →
        toggleFilterSelection sel f v = sel ++ [mkId f v]) ∧
      parseId (mkId f v) = (f, some (v.takeWhile (fun x => decide (x ≠ ':')))) ∧
      v.takeWhile (fun x => decide (x ≠ ':')) ≠ v ∧
      (∀ (c : List Dataset) (q : Str),
        applyFilters c [mkId f v] q =
          applyFilters c [mkId f (v.takeWhile (fun x => decide (x ≠ ':')))] q) := by
  refine ⟨?_, parseId_mkId_colon f v hf hv, ?_, ?_⟩
  · intro sel hnot
    unfold toggleFilterSelection
    rw [if_neg (fun hc => hnot ((includes_iff _ _).mp hc))]
  · intro he
    have hn := colon_not_mem_takeWhile v
    rw [he] at hn
    exact hn hv
  · intro c q
    unfold applyFilters
    rw [collectFilters_single_colon f v hf hv,
      collectFilters_single f (v.takeWhile (fun x => decide (x ≠ ':'))) hf
        (colon_not_mem_takeWhile v)]

/-- Witness for C10 at f = "object", v = "a:b". -/
theorem C10_witness :
    (':' ∉ objectKey ∧ ':' ∈ "a:b".toList) ∧
      ((∀ sel : List Str, mkId objectKey "a:b".toList ∉ sel →
          toggleFilterSelection sel objectKey "a:b".toList =
            sel ++ [mkId objectKey "a:b".toList]) ∧
        parseId (mkId objectKey "a:b".toList) =
          (objectKey, some ("a:b".toList.takeWhile (fun x => decide (x ≠ ':')))) ∧
        "a:b".toList.takeWhile (fun x => decide (x ≠ ':')) ≠ "a:b".toList ∧
        (∀ (c : List Dataset) (q : Str),
          applyFilters c [mkId objectKey "a:b".toList] q =
            applyFilters c
              [mkId objectKey ("a:b".toList.takeWhile (fun x => decide (x ≠ ':')))]
              q)) :=
  ⟨⟨by decide, by decide⟩,
    C10_colon_truncation objectKey "a:b".toList (by decide) (by decide)⟩

end RC
